import Mathlib

/-!
# Verification of the correlated-bandit best-arm identification core

Shallow embedding of the notebook `bandits/CorrelatedBandit.ipynb`:
the analytic per-arm MSE of a Gaussian covariance model (`gaussMse`),
the pairwise sample-statistics estimator (`sample_stats` / `mse`,
embedded as `evars`, `ecorrs`, `mseEstimate`), the uniform budget
allocator (`uniform_sampling`), the Successive Rejects sampling
schedule (`sr_trials`) and the Successive Rejects elimination run
(`successive_rejects`).

Python floats are modelled by exact arithmetic (`ℚ` for the integer/
rational schedule computations, `ℝ` for the statistics).  The bandit's
random draw primitive (`scipy`'s `rvs`, out of the core's scope) is
modelled as an injected oracle returning the requested number of joint
samples.  Python exceptions are modelled by `Except PyErr`.
-/

set_option maxHeartbeats 1600000

namespace CorrelatedBandit

/-! ## The Successive Rejects sampling schedule (`sr_trials`)

Python source:
```
def sr_trials(n, K):
    ck = (K-1)/2 + sum(j/(K-j) for j in range(1, K-1))
    K2 = K*(K-1)/2
    # ceiling division
    return [-(-(n-K2) // (ck*(K+1-k))) for k in range(1, K)]
```
`-(-(x) // y)` on exact values is the ceiling of `x / y`. -/

/-- The normalizing constant `ck` computed by `sr_trials`:
`(K-1)/2 + sum(j/(K-j) for j in range(1, K-1))`. -/
def logbarCk (K : ℕ) : ℚ :=
  ((K : ℚ) - 1) / 2 + ∑ j ∈ Finset.Ico 1 (K - 1), (j : ℚ) / ((K : ℚ) - (j : ℚ))

/-- Python `sr_trials(n, K)`: the cumulative per-pair sample counts
`n_1, ..., n_{K-1}`, one per phase. -/
def sr_trials (n : ℕ) (K : ℕ) : List ℤ :=
  (List.range (K - 1)).map fun k0 : ℕ =>
    ⌈((n : ℚ) - (K : ℚ) * ((K : ℚ) - 1) / 2) /
      (logbarCk K * ((K : ℚ) + 1 - ((k0 : ℚ) + 1)))⌉

/-- Modelled from the claim's words (NOT from the code): the same closed
form but with normalizing constant `(K-1)/2 + Σ_{j=1}^{K-2} 1/(K-j)`,
as claim C1 states it. -/
def srTrialsClaimC1 (n : ℕ) (K : ℕ) : List ℤ :=
  (List.range (K - 1)).map fun k0 : ℕ =>
    ⌈((n : ℚ) - (K : ℚ) * ((K : ℚ) - 1) / 2) /
      ((((K : ℚ) - 1) / 2 + ∑ j ∈ Finset.Ico 1 (K - 1), 1 / ((K : ℚ) - (j : ℚ))) *
        ((K : ℚ) + 1 - ((k0 : ℚ) + 1)))⌉

/-- The per-phase sample increments used by `successive_rejects`:
`ns = [0] + sr_trials(trials, K); ts = np.subtract(ns[1:], ns[:-1])`. -/
def srIncrements (n : ℕ) (K : ℕ) : List ℤ :=
  List.zipWith (fun a b => a - b) (sr_trials n K) (0 :: sr_trials n K)

/-! ## Pairwise sample statistics (`sample_stats`) and the MSE estimator (`mse`)

Python source (cells 5 and 6):
```
def sample_stats(arm_sample_dict, num_arms=None):
    emeans = np.zeros((num_arms, num_arms))
    evars = np.zeros((num_arms, num_arms))
    ecorrs = np.zeros((num_arms, num_arms))
    for inds,xs in arm_sample_dict.items():
        i,j = inds
        xs = xs.transpose()
        emeans[i,j],  emeans[j,i] = np.mean(xs, axis=1)
        evars[i,j],   evars[j,i]  = np.var(xs, ddof=0, axis=1)
        ecorrs[i,j] = ecorrs[j,i] = np.corrcoef(xs)[0,1]
    return emeans, evars, ecorrs

def mse(arms_dict, num_arms=None):
    _, evars, ecorrs = sample_stats(arms_dict, num_arms=num_arms)
    return np.sum(np.transpose(evars)*(1-ecorrs*ecorrs), axis=1)
```
A dict entry for key `(i, j)` (always `i < j` in this notebook) is the
batch of joint samples for the pair: a list of `(x_i, x_j)` values. -/

noncomputable section

/-- Python `np.mean` of a list of reals.  On the empty list numpy
yields `NaN`, which exact arithmetic cannot represent (Lean's
`x / 0 = 0` convention differs there); the development only ever
evaluates this on the non-empty cumulative batches actually drawn, so
the divergence is never exercised. -/
def listMean (xs : List ℝ) : ℝ := xs.sum / xs.length

/-- Python `np.var(xs, ddof=0)`: population variance, the mean of the squared
deviations from the mean.  Same empty-list caveat as `listMean`: numpy
yields `NaN` there, and the development never evaluates this on an
empty batch. -/
def listVarP (xs : List ℝ) : ℝ :=
  (xs.map fun x => (x - listMean xs) ^ 2).sum / xs.length

/-- Python `np.corrcoef(xs)[0,1]`: the Pearson correlation coefficient of the
paired observations, `Σ dx·dy / (sqrt (Σ dx²) · sqrt (Σ dy²))` where
`dx`, `dy` are the deviations from the respective means.  (On empty or
constant data numpy produces `NaN`; the claims only evaluate this on
batches the code actually accumulated.) -/
def corrcoef (xys : List (ℝ × ℝ)) : ℝ :=
  (xys.map fun p =>
      (p.1 - listMean (xys.map Prod.fst)) * (p.2 - listMean (xys.map Prod.snd))).sum /
    (Real.sqrt ((xys.map fun p => (p.1 - listMean (xys.map Prod.fst)) ^ 2).sum) *
      Real.sqrt ((xys.map fun p => (p.2 - listMean (xys.map Prod.snd)) ^ 2).sum))

/-- A batch of joint samples for one arm pair. -/
abbrev Batch := List (ℝ × ℝ)

/-- The dict `arm_sample_dict`: maps the key `(i, j)` to the cumulative batch for
that pair (`none` = key absent). -/
abbrev ArmsDict (K : ℕ) := Fin K → Fin K → Option Batch

/-- Well-formedness of the dict as the notebook builds it: every present
key `(i, j)` has `i < j`. -/
def DictWF {K : ℕ} (d : ArmsDict K) : Prop :=
  ∀ i j : Fin K, (d i j).isSome → i < j

/-- The matrix `emeans` filled by `sample_stats`: `emeans[i,j]` is the
sample mean of arm `i`'s observations in the pair holding `i` and `j`
(`0` where no pair data exists, matching the `np.zeros` initialization). -/
def emeans {K : ℕ} (d : ArmsDict K) (i j : Fin K) : ℝ :=
  match d i j with
  | some xs => listMean (xs.map Prod.fst)
  | none =>
    match d j i with
    | some xs => listMean (xs.map Prod.snd)
    | none => 0

/-- The matrix `evars` filled by `sample_stats`: `evars[i,j]` is the
population variance of arm `i`'s observations in the pair holding `i`
and `j` (`0` where no pair data exists). -/
def evars {K : ℕ} (d : ArmsDict K) (i j : Fin K) : ℝ :=
  match d i j with
  | some xs => listVarP (xs.map Prod.fst)
  | none =>
    match d j i with
    | some xs => listVarP (xs.map Prod.snd)
    | none => 0

/-- The matrix `ecorrs` filled by `sample_stats`: both `ecorrs[i,j]` and
`ecorrs[j,i]` receive the Pearson coefficient of the pair's batch. -/
def ecorrs {K : ℕ} (d : ArmsDict K) (i j : Fin K) : ℝ :=
  match d i j with
  | some xs => corrcoef xs
  | none =>
    match d j i with
    | some xs => corrcoef xs
    | none => 0

/-- The estimator `mse(arms_dict, num_arms)`: row `a` of
`np.sum(np.transpose(evars)*(1-ecorrs*ecorrs), axis=1)`, i.e.
`Σ_p evars[p,a]·(1 - ecorrs[a,p]²)`. -/
def mseEstimate {K : ℕ} (d : ArmsDict K) (a : Fin K) : ℝ :=
  ∑ p : Fin K, evars d p a * (1 - ecorrs d a p ^ 2)

/-! ## The analytic MSE of the Gaussian model (`GaussianBandit.mse`)

Python source (cell 3):
```
def mse(self):
    xvars = np.diagonal(self.distr.cov)
    xcorr = self.distr.cov / np.sqrt(xvars) / np.sqrt(np.reshape(xvars, (-1,1)))
    return np.sum(xvars*(1-xcorr*xcorr), axis=1)
```
so `xcorr[i,j] = cov[i,j] / (sqrt cov[j,j] * sqrt cov[i,i])` and entry
`i` of the result is `Σ_j cov[j,j]·(1 - xcorr[i,j]²)`. -/

/-- Python `GaussianBandit.mse`, the analytic true-MSE vector of a covariance
matrix. -/
def gaussMse {K : ℕ} (cov : Fin K → Fin K → ℝ) (i : Fin K) : ℝ :=
  ∑ j : Fin K,
    cov j j * (1 - (cov i j / (Real.sqrt (cov j j) * Real.sqrt (cov i i))) ^ 2)

/-- Modelled from the claim's words (NOT from the code): entry `i` is the
sum over all arms `p ≠ i` of `Var(p)·(1 - ρ(p,i)²)` where
`ρ(p,i) = cov (p,i) / sqrt (Var p * Var i)`. -/
def trueMseClaimC2 {K : ℕ} (cov : Fin K → Fin K → ℝ) (i : Fin K) : ℝ :=
  ∑ p ∈ Finset.univ.erase i,
    cov p p * (1 - (cov p i / Real.sqrt (cov p p * cov i i)) ^ 2)

/-- Modelled from the claim's words (NOT from the code): for arm `a`, the
sum over exactly the pairs involving `a` that are present in the dict of
the other arm's population variance times one minus the squared Pearson
correlation of the pair's cumulative batch. -/
def estimateClaimC3 {K : ℕ} (d : ArmsDict K) (a : Fin K) : ℝ :=
  ∑ p ∈ Finset.univ.filter
      (fun p : Fin K => p ≠ a ∧ ((d p a).isSome ∨ (d a p).isSome)),
    (match d p a with
     | some xs => listVarP (xs.map Prod.fst) * (1 - corrcoef xs ^ 2)
     | none =>
       match d a p with
       | some xs => listVarP (xs.map Prod.snd) * (1 - corrcoef xs ^ 2)
       | none => 0)

/-! ## Selection folds

`np.argmin(v)` returns the first index attaining the minimum.
`max(((i,v) for (i,v) in enumerate(mse_vals) if i in B), key=lambda x: x[1])`
iterates over indices in increasing order and keeps the first maximal
item (Python's `max` replaces the current best only on strict
improvement); `min(v for (i,v) in enumerate(mse_vals) if i in B)` is the
minimal value over the active arms. -/

/-- One step of Python's `max(..., key=...)` over enumerated indices:
replace the current best index only when the new value is strictly
greater. -/
def pickMaxStep {K : ℕ} (v : Fin K → ℝ) (acc : Option (Fin K)) (i : Fin K) :
    Option (Fin K) :=
  match acc with
  | none => some i
  | some j => if v j < v i then some i else some j

/-- One step of `np.argmin`: replace the current best index only when
the new value is strictly smaller. -/
def pickMinStep {K : ℕ} (v : Fin K → ℝ) (acc : Option (Fin K)) (i : Fin K) :
    Option (Fin K) :=
  match acc with
  | none => some i
  | some j => if v i < v j then some i else some j

/-- One step of Python's `min` over a stream of values. -/
def minValStep {K : ℕ} (v : Fin K → ℝ) (acc : Option ℝ) (i : Fin K) : Option ℝ :=
  match acc with
  | none => some (v i)
  | some m => some (min m (v i))

/-- Python `np.argmin(v)` (over all `K` indices, in index order); `none` only
when `K = 0`, where numpy raises. -/
def npArgmin {K : ℕ} (v : Fin K → ℝ) : Option (Fin K) :=
  (List.finRange K).foldl (pickMinStep v) none

/-- The arm rejected by a Successive Rejects phase:
`max(((i,v) for (i,v) in enumerate(mse_vals) if i in B), key=lambda x: x[1])`;
`none` when `B` is empty, where Python's `max` raises. -/
def argmaxIn {K : ℕ} (B : Finset (Fin K)) (v : Fin K → ℝ) : Option (Fin K) :=
  ((List.finRange K).filter fun i => i ∈ B).foldl (pickMaxStep v) none

/-- Python `min(v for (i,v) in enumerate(mse_vals) if i in B)`; `none` when `B`
is empty, where Python's `min` raises. -/
def minIn {K : ℕ} (B : Finset (Fin K)) (v : Fin K → ℝ) : Option ℝ :=
  ((List.finRange K).filter fun i => i ∈ B).foldl (minValStep v) none

/-! ## The uniform allocator (`uniform_sampling`)

Python source (cell 7):
```
def uniform_sampling(bandit, trials):
    n = (2*trials) // (bandit.num_arms*(bandit.num_arms-1))
    arms_dict = dict()
    for i in range(bandit.num_arms):
        for j in range(i+1, bandit.num_arms):
            arms_dict[(i,j)] = bandit.sample_arms(arms=[i,j], size=n)
    mse_vals = mse(arms_dict, num_arms=bandit.num_arms)
    return np.argmin(mse_vals), mse_vals
```
The bandit's random draw primitive is injected as an oracle
`sampler pair size`, returning the batch of joint samples for that
call; it is only ever consulted at sizes ≥ 1.  A draw with `size = 0`
— which the loop issues on its very first pair whenever `n = 0` —
raises a numpy `ValueError` inside `sample_arms`:
`np.reshape(multi_sample, (0, -1))` cannot infer the `-1` dimension of
an empty sample.  So for `n = 0` the allocator fails before any dict
entry is built (there is no budget validation of any kind in the
source; the failure is numpy's, not a budget check). -/

/-- Python exceptions reachable from the allocators: numpy's
`ValueError` (reshape of an empty sample, a negative draw size,
`max`/`min`/`np.argmin` on an empty sequence), `set.pop` on an empty
set (`KeyError`), and reading an unbound `min_mse` (`NameError`). -/
inductive PyErr where
  | valueError : PyErr
  | keyError : PyErr
  | nameError : PyErr
deriving DecidableEq

/-- The universe of pairs iterated by both allocators: all `(i, j)`
with `i < j`. -/
def allPairs (K : ℕ) : Finset (Fin K × Fin K) :=
  Finset.univ.filter fun p : Fin K × Fin K => p.1 < p.2

/-- The per-pair sample count `n = (2*trials) // (K*(K-1))`. -/
def uniformPairCount (K trials : ℕ) : ℕ := 2 * trials / (K * (K - 1))

/-- The dict built by `uniform_sampling`'s loop when `n ≥ 1` (a size-0
draw never completes, see above): one batch of `n` joint draws for
every pair `i < j`. -/
def uniformDict {K : ℕ} (sampler : Fin K × Fin K → ℕ → Batch) (trials : ℕ) :
    ArmsDict K :=
  fun i j =>
    if i < j then some (sampler (i, j) (uniformPairCount K trials)) else none

/-- Python `uniform_sampling(bandit, trials)`: when the per-pair count
rounds to `0` and at least one pair exists, the first
`sample_arms(..., size=0)` call raises numpy's `ValueError` in
`np.reshape`; otherwise the argmin-chosen arm and the estimated MSE
vector (a `none` arm models `np.argmin` raising at `K = 0`). -/
def uniform_sampling {K : ℕ} (sampler : Fin K × Fin K → ℕ → Batch)
    (trials : ℕ) : Except PyErr (Option (Fin K) × (Fin K → ℝ)) :=
  if uniformPairCount K trials = 0 ∧ (allPairs K).Nonempty then
    .error .valueError
  else
    .ok (npArgmin (mseEstimate (uniformDict sampler trials)),
      mseEstimate (uniformDict sampler trials))

/-! ## Successive Rejects (`successive_rejects`)

Python source (cell 8):
```
def successive_rejects(bandit, trials, verbose=0):
    B = set(range(bandit.num_arms))
    A = set((i,j) for i in range(bandit.num_arms) for j in range(i+1, bandit.num_arms))
    ns = [0] + sr_trials(trials, bandit.num_arms)
    ts = np.subtract(ns[1:], ns[:-1])
    mse_ests = np.zeros(bandit.num_arms)
    arms_dict = dict()
    for k,t in enumerate(ts):
        for pair in A:
            if int(t) == 0:
                break
            if pair not in arms_dict:
                arms_dict[pair] = bandit.sample_arms(arms=list(pair), size=int(t))
            else:
                arms_dict[pair] = np.concatenate((arms_dict[pair],
                    bandit.sample_arms(arms=list(pair), size=int(t))), axis=0)
        mse_vals = mse(arms_dict, num_arms=bandit.num_arms)
        reject, val = max(((i,v) for (i,v) in enumerate(mse_vals) if i in B),
                          key=lambda x: x[1])
        mse_ests[reject] = val
        min_mse = min(v for (i,v) in enumerate(mse_vals) if i in B)
        B.remove(reject)
        A = {p for p in A if p[0] in B or p[1] in B}
        arms_dict = {p:v for p,v in arms_dict.items() if p[0] in B or p[1] in B}
    arm = B.pop()
    mse_ests[arm] = min_mse
    return arm, mse_ests
```
Python exceptions reachable from this code are modelled by `PyErr`:
drawing a negative number of samples raises a `ValueError` inside
numpy, `max`/`min` on an empty sequence raise `ValueError`, `set.pop`
on an empty set raises `KeyError`, and reading `min_mse` when the loop
never ran raises a `NameError`.  There is no budget validation of any
kind in the source.  Note the `break` fires before any draw call when
`int(t) == 0`, so this loop never issues a size-0 draw. -/

/-- The mutable state of a `successive_rejects` run: active arms `B`,
active pairs `A`, the cumulative sample dict, the frozen estimates
`mse_ests`, the latest `min_mse` (unbound before the first phase), and
the number of completed phases (used to key the draw oracle). -/
structure SRState (K : ℕ) where
  B : Finset (Fin K)
  A : Finset (Fin K × Fin K)
  dict : ArmsDict K
  ests : Fin K → ℝ
  minMse : Option ℝ
  phase : ℕ

/-- The initial state of a run: all arms active, all pairs active,
empty dict, `np.zeros` estimates, `min_mse` unbound. -/
def srInit (K : ℕ) : SRState K :=
  ⟨Finset.univ, allPairs K, fun _ _ => none, fun _ => 0, none, 0⟩

/-- The sampling pass of one phase: every pair still in `A` receives
`t` fresh joint draws appended to its cumulative batch; `t = 0` skips
the pass (the `break`).  The draw oracle is keyed by phase and pair so
that distinct calls are independent draws. -/
def srSampleDict {K : ℕ} (sampler : ℕ → Fin K × Fin K → ℕ → Batch)
    (st : SRState K) (t : ℤ) : ArmsDict K :=
  fun i j =>
    if t = 0 then st.dict i j
    else if (i, j) ∈ st.A then
      some ((st.dict i j).getD [] ++ sampler st.phase (i, j) t.toNat)
    else st.dict i j

/-- The estimated MSE vector `mse_vals` computed during a phase with
increment `t` starting from state `st`. -/
def phaseVals {K : ℕ} (sampler : ℕ → Fin K × Fin K → ℕ → Batch)
    (st : SRState K) (t : ℤ) : Fin K → ℝ :=
  mseEstimate (srSampleDict sampler st t)

/-- One phase of `successive_rejects`: sample, re-estimate, reject the
worst active arm, freeze its estimate, record the phase's minimum, and
prune `A` and the dict. -/
def srPhase {K : ℕ} (sampler : ℕ → Fin K × Fin K → ℕ → Batch) (t : ℤ)
    (st : SRState K) : Except PyErr (SRState K) :=
  if t < 0 ∧ st.A.Nonempty then .error .valueError
  else
    match argmaxIn st.B (phaseVals sampler st t),
        minIn st.B (phaseVals sampler st t) with
    | some reject, some m =>
      .ok ⟨st.B.erase reject,
        st.A.filter fun p => p.1 ∈ st.B.erase reject ∨ p.2 ∈ st.B.erase reject,
        fun i j =>
          if i ∈ st.B.erase reject ∨ j ∈ st.B.erase reject then
            srSampleDict sampler st t i j
          else none,
        Function.update st.ests reject (phaseVals sampler st t reject),
        some m, st.phase + 1⟩
    | _, _ => .error .valueError

/-- The phase loop `for k,t in enumerate(ts)`. -/
def srLoop {K : ℕ} (sampler : ℕ → Fin K × Fin K → ℕ → Batch) :
    List ℤ → SRState K → Except PyErr (SRState K)
  | [], st => .ok st
  | t :: ts, st =>
    match srPhase sampler t st with
    | .error e => .error e
    | .ok st' => srLoop sampler ts st'

/-- The epilogue `arm = B.pop(); mse_ests[arm] = min_mse`: pop an
element of `B` (the first in index order; in a completed run `B` is a
singleton) and overwrite its estimate with the last phase's minimum. -/
def srFinish {K : ℕ} (st : SRState K) : Except PyErr (Fin K × (Fin K → ℝ)) :=
  match ((List.finRange K).filter fun i => i ∈ st.B).head? with
  | none => .error .keyError
  | some arm =>
    match st.minMse with
    | none => .error .nameError
    | some m => .ok (arm, Function.update st.ests arm m)

/-- Python `successive_rejects(bandit, trials)`. -/
def successive_rejects {K : ℕ} (sampler : ℕ → Fin K × Fin K → ℕ → Batch)
    (trials : ℕ) : Except PyErr (Fin K × (Fin K → ℝ)) :=
  match srLoop sampler (srIncrements trials K) (srInit K) with
  | .error e => .error e
  | .ok st => srFinish st

/-- The run truncated to its first `k` phases (`srRunStates k` is the
state after phase `k`). -/
def srRunStates {K : ℕ} (sampler : ℕ → Fin K × Fin K → ℕ → Batch)
    (trials : ℕ) (k : ℕ) : Except PyErr (SRState K) :=
  srLoop sampler ((srIncrements trials K).take k) (srInit K)

/-! ## Concrete instances used to exercise the definitions -/

/-- A deterministic draw oracle for concrete runs: every requested batch
is a run of `(0, 0)` pairs of the requested size. -/
def zeroSampler (K : ℕ) : ℕ → Fin K × Fin K → ℕ → Batch :=
  fun _ _ n => List.replicate n (0, 0)

/-- The same deterministic oracle in the shape `uniform_sampling` uses. -/
def zeroPairSampler (K : ℕ) : Fin K × Fin K → ℕ → Batch :=
  fun _ n => List.replicate n (0, 0)

/-- A concrete 2×2 covariance matrix: unit variances, covariance 1/2. -/
def covExample : Fin 2 → Fin 2 → ℝ :=
  fun i j => if i = j then 1 else 1 / 2

/-- A concrete sample dict on two arms: one batch for the pair `(0, 1)`. -/
def dictExample : ArmsDict 2 :=
  fun i j => if i < j then some [(1, 2), (3, 5)] else none

end

/-! ## Theorems -/

section Claims

open Finset

/-- CLAIM C2.  For every valid K×K covariance matrix (symmetric, with
positive variances on the diagonal), the analytic true-MSE operation
`GaussianBandit.mse` returns the vector whose `i`-th entry is
`Σ_{p ≠ i} Var(p)·(1 − ρ(p,i)²)` with
`ρ(p,i) = cov (p,i) / sqrt (Var p · Var i)`. -/
theorem claim_C2_true_mse {K : ℕ} (cov : Fin K → Fin K → ℝ)
    (hsym : ∀ i j, cov i j = cov j i) (hpos : ∀ i, 0 < cov i i) (i : Fin K) :
    gaussMse cov i = trueMseClaimC2 cov i := by
  unfold gaussMse trueMseClaimC2
  rw [← Finset.add_sum_erase _ _ (Finset.mem_univ i)]
  have hii : Real.sqrt (cov i i) * Real.sqrt (cov i i) = cov i i :=
    Real.mul_self_sqrt (hpos i).le
  have h0 : cov i i *
      (1 - (cov i i / (Real.sqrt (cov i i) * Real.sqrt (cov i i))) ^ 2) = 0 := by
    rw [hii, div_self (hpos i).ne']
    norm_num
  rw [h0, zero_add]
  refine Finset.sum_congr rfl fun p _ => ?_
  rw [Real.sqrt_mul (hpos p).le, hsym i p]

/-- Witness for C2 at the concrete covariance matrix `covExample`. -/
theorem claim_C2_true_mse_witness :
    (∀ i j, covExample i j = covExample j i) ∧ (∀ i, 0 < covExample i i) ∧
      gaussMse covExample 0 = trueMseClaimC2 covExample 0 := by
  have hsym : ∀ i j, covExample i j = covExample j i := by
    intro i j
    fin_cases i <;> fin_cases j <;> norm_num [covExample]
  have hpos : ∀ i, 0 < covExample i i := by
    intro i
    fin_cases i <;> norm_num [covExample]
  exact ⟨hsym, hpos, claim_C2_true_mse covExample hsym hpos 0⟩

/-- CLAIM C3.  For every well-formed dict of non-empty sample batches,
the MSE estimator returns for arm `a` the sum over exactly the pairs
involving `a` of the other arm's population variance (ddof=0) times one
minus the squared Pearson correlation, computed over the cumulative
batch for that pair. -/
theorem claim_C3_estimator {K : ℕ} (d : ArmsDict K) (hwf : DictWF d)
    (hne : ∀ i j xs, d i j = some xs → xs ≠ []) (a : Fin K) :
    mseEstimate d a = estimateClaimC3 d a := by
  clear hne
  unfold mseEstimate estimateClaimC3
  rw [← Finset.sum_filter_add_sum_filter_not Finset.univ
    (fun p : Fin K => p ≠ a ∧ ((d p a).isSome ∨ (d a p).isSome))]
  have hzero : ∀ p ∈ Finset.univ.filter
      (fun p : Fin K => ¬(p ≠ a ∧ ((d p a).isSome ∨ (d a p).isSome))),
      evars d p a * (1 - ecorrs d a p ^ 2) = 0 := by
    intro p hp
    rw [Finset.mem_filter, not_and_or, not_ne_iff, not_or] at hp
    rcases hp.2 with rfl | ⟨h1, h2⟩
    · have haa : d p p = none := by
        cases h : d p p with
        | none => rfl
        | some xs => exact absurd (hwf p p (h ▸ rfl)) (lt_irrefl p)
      simp [evars, haa]
    · have h1' : d p a = none := Option.not_isSome_iff_eq_none.mp (by simpa using h1)
      have h2' : d a p = none := Option.not_isSome_iff_eq_none.mp (by simpa using h2)
      simp [evars, h1', h2']
  rw [Finset.sum_eq_zero hzero, add_zero]
  refine Finset.sum_congr rfl fun p hp => ?_
  rw [Finset.mem_filter] at hp
  cases hpa : d p a with
  | some xs =>
    have hap : d a p = none := by
      cases h : d a p with
      | none => rfl
      | some ys =>
        have h1 : p < a := hwf p a (hpa ▸ rfl)
        have h2 : a < p := hwf a p (h ▸ rfl)
        exact absurd (h1.trans h2) (lt_irrefl p)
    simp [evars, ecorrs, hpa, hap]
  | none =>
    cases hap : d a p with
    | some xs =>
      simp [evars, ecorrs, hpa, hap]
    | none =>
      rcases hp.2.2 with h | h
      · rw [hpa] at h
        simp at h
      · rw [hap] at h
        simp at h

/-- Witness for C3 at the concrete dict `dictExample`. -/
theorem claim_C3_estimator_witness :
    DictWF dictExample ∧
      (∀ i j xs, dictExample i j = some xs → xs ≠ []) ∧
      mseEstimate dictExample 1 = estimateClaimC3 dictExample 1 := by
  have hwf : DictWF dictExample := by
    intro i j h
    fin_cases i <;> fin_cases j <;> simp_all [dictExample]
  have hne : ∀ i j xs, dictExample i j = some xs → xs ≠ [] := by
    intro i j xs h
    unfold dictExample at h
    by_cases hij : i < j
    · rw [if_pos hij] at h
      injection h with h
      subst h
      simp
    · rw [if_neg hij] at h
      exact absurd h (by simp)
  exact ⟨hwf, hne, claim_C3_estimator dictExample hwf hne 1⟩

/-! ### Characterization of the selection folds -/

theorem pickMax_fold_spec {K : ℕ} (v : Fin K → ℝ) :
    ∀ (l : List (Fin K)) (j : Fin K), (∀ b ∈ l, j < b) → l.Pairwise (· < ·) →
      ∃ r, l.foldl (pickMaxStep v) (some j) = some r ∧ (r = j ∨ r ∈ l) ∧
        v j ≤ v r ∧ (∀ b ∈ l, v b ≤ v r) ∧
        ∀ b, (b = j ∨ b ∈ l) → b < r → v b < v r := by
  intro l
  induction l with
  | nil =>
    intro j _ _
    refine ⟨j, rfl, Or.inl rfl, le_refl _, by simp, ?_⟩
    rintro b (rfl | hb) hbr
    · exact absurd hbr (lt_irrefl _)
    · exact absurd hb (List.not_mem_nil b)
  | cons i tl ih =>
    intro j hlt hpw
    rw [List.foldl_cons]
    obtain ⟨hitl, hpwtl⟩ := List.pairwise_cons.mp hpw
    by_cases hij : v j < v i
    · have hstep : pickMaxStep v (some j) i = some i := by
        simp [pickMaxStep, hij]
      rw [hstep]
      obtain ⟨r, hfold, hrmem, hvir, hub, hstrict⟩ := ih i hitl hpwtl
      refine ⟨r, hfold, ?_, le_trans hij.le hvir, ?_, ?_⟩
      · rcases hrmem with rfl | hr
        · exact Or.inr (List.mem_cons_self _ _)
        · exact Or.inr (List.mem_cons_of_mem _ hr)
      · intro b hb
        rcases List.mem_cons.mp hb with rfl | hb
        · exact hvir
        · exact hub b hb
      · intro b hb hbr
        rcases hb with rfl | hb
        · exact lt_of_lt_of_le hij hvir
        · rcases List.mem_cons.mp hb with rfl | hb
          · exact hstrict b (Or.inl rfl) hbr
          · exact hstrict b (Or.inr hb) hbr
    · have hstep : pickMaxStep v (some j) i = some j := by
        simp [pickMaxStep, hij]
      rw [hstep]
      have htl : ∀ b ∈ tl, j < b := fun b hb => hlt b (List.mem_cons_of_mem _ hb)
      obtain ⟨r, hfold, hrmem, hvjr, hub, hstrict⟩ := ih j htl hpwtl
      refine ⟨r, hfold, ?_, hvjr, ?_, ?_⟩
      · rcases hrmem with rfl | hr
        · exact Or.inl rfl
        · exact Or.inr (List.mem_cons_of_mem _ hr)
      · intro b hb
        rcases List.mem_cons.mp hb with rfl | hb
        · exact le_trans (not_lt.mp hij) hvjr
        · exact hub b hb
      · intro b hb hbr
        rcases hb with rfl | hb
        · exact hstrict b (Or.inl rfl) hbr
        · rcases List.mem_cons.mp hb with rfl | hb
          · rcases hrmem with rfl | hr
            · exact absurd hbr (not_lt.mpr (hlt b (List.mem_cons_self _ _)).le)
            · have hjr : j < r :=
                lt_trans (hlt b (List.mem_cons_self _ _)) (hitl r hr)
              exact lt_of_le_of_lt (not_lt.mp hij)
                (hstrict j (Or.inl rfl) hjr)
          · exact hstrict b (Or.inr hb) hbr

theorem pickMin_fold_spec {K : ℕ} (v : Fin K → ℝ) :
    ∀ (l : List (Fin K)) (j : Fin K), (∀ b ∈ l, j < b) → l.Pairwise (· < ·) →
      ∃ r, l.foldl (pickMinStep v) (some j) = some r ∧ (r = j ∨ r ∈ l) ∧
        v r ≤ v j ∧ (∀ b ∈ l, v r ≤ v b) ∧
        ∀ b, (b = j ∨ b ∈ l) → b < r → v r < v b := by
  intro l
  induction l with
  | nil =>
    intro j _ _
    refine ⟨j, rfl, Or.inl rfl, le_refl _, by simp, ?_⟩
    rintro b (rfl | hb) hbr
    · exact absurd hbr (lt_irrefl _)
    · exact absurd hb (List.not_mem_nil b)
  | cons i tl ih =>
    intro j hlt hpw
    rw [List.foldl_cons]
    obtain ⟨hitl, hpwtl⟩ := List.pairwise_cons.mp hpw
    by_cases hij : v i < v j
    · have hstep : pickMinStep v (some j) i = some i := by
        simp [pickMinStep, hij]
      rw [hstep]
      obtain ⟨r, hfold, hrmem, hvri, hub, hstrict⟩ := ih i hitl hpwtl
      refine ⟨r, hfold, ?_, le_trans hvri hij.le, ?_, ?_⟩
      · rcases hrmem with rfl | hr
        · exact Or.inr (List.mem_cons_self _ _)
        · exact Or.inr (List.mem_cons_of_mem _ hr)
      · intro b hb
        rcases List.mem_cons.mp hb with rfl | hb
        · exact hvri
        · exact hub b hb
      · intro b hb hbr
        rcases hb with rfl | hb
        · exact lt_of_le_of_lt hvri hij
        · rcases List.mem_cons.mp hb with rfl | hb
          · exact hstrict b (Or.inl rfl) hbr
          · exact hstrict b (Or.inr hb) hbr
    · have hstep : pickMinStep v (some j) i = some j := by
        simp [pickMinStep, hij]
      rw [hstep]
      have htl : ∀ b ∈ tl, j < b := fun b hb => hlt b (List.mem_cons_of_mem _ hb)
      obtain ⟨r, hfold, hrmem, hvrj, hub, hstrict⟩ := ih j htl hpwtl
      refine ⟨r, hfold, ?_, hvrj, ?_, ?_⟩
      · rcases hrmem with rfl | hr
        · exact Or.inl rfl
        · exact Or.inr (List.mem_cons_of_mem _ hr)
      · intro b hb
        rcases List.mem_cons.mp hb with rfl | hb
        · exact le_trans hvrj (not_lt.mp hij)
        · exact hub b hb
      · intro b hb hbr
        rcases hb with rfl | hb
        · exact hstrict b (Or.inl rfl) hbr
        · rcases List.mem_cons.mp hb with rfl | hb
          · rcases hrmem with rfl | hr
            · exact absurd hbr (not_lt.mpr (hlt b (List.mem_cons_self _ _)).le)
            · have hjr : j < r :=
                lt_trans (hlt b (List.mem_cons_self _ _)) (hitl r hr)
              exact lt_of_lt_of_le (hstrict j (Or.inl rfl) hjr)
                (not_lt.mp hij)
          · exact hstrict b (Or.inr hb) hbr

theorem minVal_fold_spec {K : ℕ} (v : Fin K → ℝ) :
    ∀ (l : List (Fin K)) (m0 : ℝ),
      ∃ m, l.foldl (minValStep v) (some m0) = some m ∧
        (m = m0 ∨ ∃ b ∈ l, m = v b) ∧ m ≤ m0 ∧ ∀ b ∈ l, m ≤ v b := by
  intro l
  induction l with
  | nil =>
    intro m0
    exact ⟨m0, rfl, Or.inl rfl, le_refl _, by simp⟩
  | cons i tl ih =>
    intro m0
    rw [List.foldl_cons]
    have hstep : minValStep v (some m0) i = some (min m0 (v i)) := rfl
    rw [hstep]
    obtain ⟨m, hfold, hatt, hle, hub⟩ := ih (min m0 (v i))
    refine ⟨m, hfold, ?_, le_trans hle (min_le_left _ _), ?_⟩
    · rcases hatt : hatt with hm | ⟨b, hb, hmb⟩
      · rcases min_choice m0 (v i) with hc | hc
        · exact Or.inl (hm.trans hc)
        · exact Or.inr ⟨i, List.mem_cons_self _ _, hm.trans hc⟩
      · exact Or.inr ⟨b, List.mem_cons_of_mem _ hb, hmb⟩
    · intro b hb
      rcases List.mem_cons.mp hb with rfl | hb
      · exact le_trans hle (min_le_right _ _)
      · exact hub b hb

/-- The filtered index list iterated by the selection folds contains
exactly the members of `B`. -/
theorem mem_activeList {K : ℕ} (B : Finset (Fin K)) (b : Fin K) :
    b ∈ (List.finRange K).filter (fun i => i ∈ B) ↔ b ∈ B := by
  simp [List.mem_filter]

theorem activeList_pairwise {K : ℕ} (B : Finset (Fin K)) :
    ((List.finRange K).filter fun i => i ∈ B).Pairwise (· < ·) :=
  (List.pairwise_lt_finRange K).sublist (List.filter_sublist _)

/-- Characterization of `argmaxIn` on a non-empty active set: it returns
the lowest-index arm attaining the maximal value. -/
theorem argmaxIn_spec {K : ℕ} (B : Finset (Fin K)) (v : Fin K → ℝ)
    (hB : B.Nonempty) :
    ∃ r, argmaxIn B v = some r ∧ r ∈ B ∧ (∀ b ∈ B, v b ≤ v r) ∧
      ∀ b ∈ B, b < r → v b < v r := by
  obtain ⟨b0, hb0⟩ := hB
  unfold argmaxIn
  cases hl : (List.finRange K).filter (fun i => i ∈ B) with
  | nil =>
    have : b0 ∈ (List.finRange K).filter (fun i => i ∈ B) :=
      (mem_activeList B b0).mpr hb0
    rw [hl] at this
    exact absurd this (List.not_mem_nil b0)
  | cons h t =>
    have hpw := activeList_pairwise B
    rw [hl] at hpw
    obtain ⟨hht, hpwt⟩ := List.pairwise_cons.mp hpw
    rw [List.foldl_cons]
    have hstep : pickMaxStep v none h = some h := rfl
    rw [hstep]
    obtain ⟨r, hfold, hrmem, hvhr, hub, hstrict⟩ := pickMax_fold_spec v t h hht hpwt
    have hrl : r ∈ (List.finRange K).filter (fun i => i ∈ B) := by
      rw [hl]
      rcases hrmem with rfl | hr
      · exact List.mem_cons_self _ _
      · exact List.mem_cons_of_mem _ hr
    refine ⟨r, hfold, (mem_activeList B r).mp hrl, ?_, ?_⟩
    · intro b hb
      have hbl : b ∈ h :: t := by
        rw [← hl]
        exact (mem_activeList B b).mpr hb
      rcases List.mem_cons.mp hbl with rfl | hbl
      · exact hvhr
      · exact hub b hbl
    · intro b hb hbr
      have hbl : b ∈ h :: t := by
        rw [← hl]
        exact (mem_activeList B b).mpr hb
      rcases List.mem_cons.mp hbl with rfl | hbl
      · exact hstrict b (Or.inl rfl) hbr
      · exact hstrict b (Or.inr hbl) hbr

/-- Characterization of `minIn` on a non-empty active set. -/
theorem minIn_spec {K : ℕ} (B : Finset (Fin K)) (v : Fin K → ℝ)
    (hB : B.Nonempty) :
    ∃ m, minIn B v = some m ∧ (∃ b ∈ B, m = v b) ∧ ∀ b ∈ B, m ≤ v b := by
  obtain ⟨b0, hb0⟩ := hB
  unfold minIn
  cases hl : (List.finRange K).filter (fun i => i ∈ B) with
  | nil =>
    have : b0 ∈ (List.finRange K).filter (fun i => i ∈ B) :=
      (mem_activeList B b0).mpr hb0
    rw [hl] at this
    exact absurd this (List.not_mem_nil b0)
  | cons h t =>
    rw [List.foldl_cons]
    have hstep : minValStep v none h = some (v h) := rfl
    rw [hstep]
    obtain ⟨m, hfold, hatt, hle, hub⟩ := minVal_fold_spec v t (v h)
    have hmemh : h ∈ B := by
      have : h ∈ h :: t := List.mem_cons_self _ _
      rw [← hl] at this
      exact (mem_activeList B h).mp this
    refine ⟨m, hfold, ?_, ?_⟩
    · rcases hatt with rfl | ⟨b, hb, hmb⟩
      · exact ⟨h, hmemh, rfl⟩
      · have hbB : b ∈ B := by
          have : b ∈ h :: t := List.mem_cons_of_mem _ hb
          rw [← hl] at this
          exact (mem_activeList B b).mp this
        exact ⟨b, hbB, hmb⟩
    · intro b hb
      have hbl : b ∈ h :: t := by
        rw [← hl]
        exact (mem_activeList B b).mpr hb
      rcases List.mem_cons.mp hbl with rfl | hbl
      · exact hle
      · exact hub b hbl

/-- Characterization of `npArgmin` for `K > 0`: it returns the
lowest-index arm attaining the minimal value. -/
theorem npArgmin_spec {K : ℕ} (v : Fin K → ℝ) (hK : 0 < K) :
    ∃ r, npArgmin v = some r ∧ (∀ b, v r ≤ v b) ∧ ∀ b, b < r → v r < v b := by
  unfold npArgmin
  cases hl : List.finRange K with
  | nil =>
    have h0 : (⟨0, hK⟩ : Fin K) ∈ List.finRange K := List.mem_finRange _
    rw [hl] at h0
    exact absurd h0 (List.not_mem_nil _)
  | cons h t =>
    have hpw := List.pairwise_lt_finRange K
    rw [hl] at hpw
    obtain ⟨hht, hpwt⟩ := List.pairwise_cons.mp hpw
    rw [List.foldl_cons]
    have hstep : pickMinStep v none h = some h := rfl
    rw [hstep]
    obtain ⟨r, hfold, hrmem, hvrh, hub, hstrict⟩ := pickMin_fold_spec v t h hht hpwt
    refine ⟨r, hfold, ?_, ?_⟩
    · intro b
      have hbl : b ∈ h :: t := by
        rw [← hl]
        exact List.mem_finRange b
      rcases List.mem_cons.mp hbl with rfl | hbl
      · exact hvrh
      · exact hub b hbl
    · intro b hbr
      have hbl : b ∈ h :: t := by
        rw [← hl]
        exact List.mem_finRange b
      rcases List.mem_cons.mp hbl with rfl | hbl
      · exact hstrict b (Or.inl rfl) hbr
      · exact hstrict b (Or.inr hbl) hbr

/-! ### The pair universe -/

/-- The number of unordered arm pairs is `K(K-1)/2`. -/
theorem allPairs_card (K : ℕ) : (allPairs K).card = K * (K - 1) / 2 := by
  classical
  have himg : (allPairs K).image Prod.swap =
      Finset.univ.filter fun p : Fin K × Fin K => p.2 < p.1 := by
    ext q
    constructor
    · intro hq
      obtain ⟨p, hp, rfl⟩ := Finset.mem_image.mp hq
      rw [allPairs, Finset.mem_filter] at hp
      rw [Finset.mem_filter]
      exact ⟨Finset.mem_univ _, hp.2⟩
    · intro hq
      rw [Finset.mem_filter] at hq
      refine Finset.mem_image.mpr ⟨q.swap, ?_, Prod.swap_swap q⟩
      rw [allPairs, Finset.mem_filter]
      exact ⟨Finset.mem_univ _, hq.2⟩
  have hswap : (allPairs K).card =
      (Finset.univ.filter fun p : Fin K × Fin K => p.2 < p.1).card := by
    rw [← himg, Finset.card_image_of_injective _ Prod.swap_injective]
  have hunion :
      allPairs K ∪ (Finset.univ.filter fun p : Fin K × Fin K => p.2 < p.1) =
        (Finset.univ : Finset (Fin K)).offDiag := by
    ext p
    rw [Finset.mem_union, allPairs, Finset.mem_filter, Finset.mem_filter,
      Finset.mem_offDiag]
    constructor
    · rintro (⟨_, h⟩ | ⟨_, h⟩)
      · exact ⟨Finset.mem_univ _, Finset.mem_univ _, ne_of_lt h⟩
      · exact ⟨Finset.mem_univ _, Finset.mem_univ _, (ne_of_lt h).symm⟩
    · rintro ⟨_, _, hne⟩
      rcases lt_or_gt_of_ne hne with h | h
      · exact Or.inl ⟨Finset.mem_univ _, h⟩
      · exact Or.inr ⟨Finset.mem_univ _, h⟩
  have hdisj : Disjoint (allPairs K)
      (Finset.univ.filter fun p : Fin K × Fin K => p.2 < p.1) := by
    rw [Finset.disjoint_left]
    intro p hp hq
    rw [allPairs, Finset.mem_filter] at hp
    rw [Finset.mem_filter] at hq
    exact absurd hq.2 (lt_asymm hp.2)
  have hcard2 : (allPairs K).card + (allPairs K).card = K * (K - 1) := by
    have hu := Finset.card_union_of_disjoint hdisj
    rw [hunion, Finset.offDiag_card, Finset.card_univ, Fintype.card_fin,
      ← hswap] at hu
    rw [← hu, Nat.mul_sub_one]
  omega

/-! ### The degenerate estimator -/

/-- When the dict holds no pair at all, the `sample_stats` matrices
keep their `np.zeros` initialization and every estimated MSE entry is
`0` — exactly numpy's behavior for an empty `arms_dict`. -/
theorem mseEstimate_degenerate {K : ℕ} (d : ArmsDict K)
    (h : ∀ i j, d i j = none) (a : Fin K) :
    mseEstimate d a = 0 := by
  unfold mseEstimate
  refine Finset.sum_eq_zero fun p _ => ?_
  have hv : evars d p a = 0 := by
    unfold evars
    rw [h p a, h a p]
  rw [hv, zero_mul]

/-- Halving the pair product is exact: `K(K-1)` is always even. -/
theorem pair_count_two_mul (K : ℕ) : 2 * (K * (K - 1) / 2) = K * (K - 1) := by
  rcases Nat.eq_zero_or_pos K with rfl | hK
  · rfl
  · have h1 : (K - 1) + 1 = K := by omega
    have he := Nat.even_mul_succ_self (K - 1)
    rw [h1] at he
    obtain ⟨r, hr⟩ := he
    have hr2 : K * (K - 1) = r + r := by
      rw [Nat.mul_comm]
      exact hr
    omega

/-- For `K ≥ 2` the pair universe is non-empty (the loop bodies run). -/
theorem allPairs_nonempty {K : ℕ} (hK : 2 ≤ K) : (allPairs K).Nonempty := by
  refine ⟨(⟨0, by omega⟩, ⟨1, by omega⟩), ?_⟩
  rw [allPairs, Finset.mem_filter]
  exact ⟨Finset.mem_univ _, Fin.mk_lt_mk.mpr (by omega)⟩

/-- CLAIM C5 (amended).  For every `K ≥ 2`, every honest draw source and
every total budget of at least `K(K-1)/2` — the budget restriction the
code forces, since any smaller budget rounds the per-pair count to `0`
and the first size-0 draw raises numpy's `ValueError` — the uniform
allocator draws exactly `n = ⌊2·trials / (K(K-1))⌋ ≥ 1` joint samples
for each of the `K(K-1)/2` pairs and returns as chosen arm the index
minimizing the estimated MSE vector, ties broken by lowest index. -/
theorem claim_C5_uniform {K : ℕ} (hK : 2 ≤ K)
    (sampler : Fin K × Fin K → ℕ → Batch)
    (hs : ∀ p n, (sampler p n).length = n) (trials : ℕ)
    (hb : K * (K - 1) / 2 ≤ trials) :
    (allPairs K).card = K * (K - 1) / 2 ∧
      1 ≤ uniformPairCount K trials ∧
      (∀ i j : Fin K, i < j →
        ∃ xs, uniformDict sampler trials i j = some xs ∧
          xs.length = 2 * trials / (K * (K - 1))) ∧
      ∃ a, uniform_sampling sampler trials =
          .ok (some a, mseEstimate (uniformDict sampler trials)) ∧
        (∀ b, mseEstimate (uniformDict sampler trials) a ≤
          mseEstimate (uniformDict sampler trials) b) ∧
        ∀ b, b < a → mseEstimate (uniformDict sampler trials) a <
          mseEstimate (uniformDict sampler trials) b := by
  have hKK : 0 < K * (K - 1) := Nat.mul_pos (by omega) (by omega)
  have h2t : K * (K - 1) ≤ 2 * trials := by
    have hpc := pair_count_two_mul K
    omega
  have hn : 1 ≤ uniformPairCount K trials :=
    (Nat.one_le_div_iff hKK).mpr h2t
  refine ⟨allPairs_card K, hn, ?_, ?_⟩
  · intro i j hij
    refine ⟨sampler (i, j) (uniformPairCount K trials), ?_, ?_⟩
    · rw [uniformDict, if_pos hij]
    · rw [hs]
      rfl
  · obtain ⟨a, ha, hub, hstrict⟩ :=
      npArgmin_spec (mseEstimate (uniformDict sampler trials)) (by omega)
    refine ⟨a, ?_, hub, hstrict⟩
    have hguard : ¬(uniformPairCount K trials = 0 ∧ (allPairs K).Nonempty) := by
      intro hcon
      exact absurd hcon.1 (by omega)
    rw [uniform_sampling.eq_def, if_neg hguard, ha]

/-- Witness for the amended C5: `K = 3`, budget `7 ≥ 3 = K(K-1)/2`. -/
theorem claim_C5_uniform_witness :
    2 ≤ 3 ∧ (∀ p n, (zeroPairSampler 3 p n).length = n) ∧
      3 * (3 - 1) / 2 ≤ 7 ∧
      ((allPairs 3).card = 3 * (3 - 1) / 2 ∧
        1 ≤ uniformPairCount 3 7 ∧
        (∀ i j : Fin 3, i < j →
          ∃ xs, uniformDict (zeroPairSampler 3) 7 i j = some xs ∧
            xs.length = 2 * 7 / (3 * (3 - 1))) ∧
        ∃ a, uniform_sampling (zeroPairSampler 3) 7 =
            .ok (some a, mseEstimate (uniformDict (zeroPairSampler 3) 7)) ∧
          (∀ b, mseEstimate (uniformDict (zeroPairSampler 3) 7) a ≤
            mseEstimate (uniformDict (zeroPairSampler 3) 7) b) ∧
          ∀ b, b < a → mseEstimate (uniformDict (zeroPairSampler 3) 7) a <
            mseEstimate (uniformDict (zeroPairSampler 3) 7) b) := by
  have hs : ∀ p n, (zeroPairSampler 3 p n).length = n := by
    intro p n
    simp [zeroPairSampler]
  exact ⟨by omega, hs, by omega,
    claim_C5_uniform (by omega) (zeroPairSampler 3) hs 7 (by omega)⟩

/-- Counterexample to CLAIM C5 as stated: the claim quantifies over
every total budget, but at `K = 3`, budget `1 < 3 = K(K-1)/2` the
per-pair count rounds to `0` and the allocator raises numpy's
`ValueError` on its first size-0 draw (`np.reshape` of an empty
sample) instead of drawing `0` samples per pair and returning an
argmin. -/
theorem claim_C5_counterexample :
    uniform_sampling (zeroPairSampler 3) 1 = .error .valueError := by
  have hcond : uniformPairCount 3 1 = 0 ∧ (allPairs 3).Nonempty :=
    ⟨by decide, by decide⟩
  rw [uniform_sampling.eq_def, if_pos hcond]

/-- CLAIM C9 (amended).  The uniform allocator performs no budget
validation and never raises `InvalidBudget` — nothing of that name
exists in the code.  With budget `0`, or any budget strictly below
`K(K-1)/2`, the per-pair count rounds to `0` and the allocator instead
fails with numpy's `ValueError`, raised by
`np.reshape(multi_sample, (0, -1))` inside the very first
`sample_arms(..., size=0)` call — it neither validates the budget nor
completes the run. -/
theorem claim_C9_uniform_no_validation {K : ℕ} (hK : 2 ≤ K)
    (sampler : Fin K × Fin K → ℕ → Batch) (trials : ℕ)
    (hb : trials < K * (K - 1) / 2) :
    uniformPairCount K trials = 0 ∧
      uniform_sampling sampler trials = .error .valueError := by
  have h2t : 2 * trials < K * (K - 1) := by
    have hpc := pair_count_two_mul K
    omega
  have hn : uniformPairCount K trials = 0 := Nat.div_eq_of_lt h2t
  refine ⟨hn, ?_⟩
  rw [uniform_sampling.eq_def, if_pos ⟨hn, allPairs_nonempty hK⟩]

/-- Witness for the amended C9: `K = 4`, budget `2 < 6 = K(K-1)/2`. -/
theorem claim_C9_uniform_no_validation_witness :
    2 ≤ 4 ∧ 2 < 4 * (4 - 1) / 2 ∧
      (uniformPairCount 4 2 = 0 ∧
        uniform_sampling (zeroPairSampler 4) 2 = .error .valueError) :=
  ⟨by omega, by omega,
    claim_C9_uniform_no_validation (by omega) (zeroPairSampler 4) 2 (by omega)⟩

/-- Counterexample to CLAIM C9 as stated: at `K = 3` and budget `0` the
uniform allocator fails with numpy's `ValueError` (the size-0 reshape
inside `sample_arms`), not with an `InvalidBudget` — no budget check or
error of that name exists anywhere in the code. -/
theorem claim_C9_counterexample :
    uniform_sampling (zeroPairSampler 3) 0 = .error .valueError := by
  have hcond : uniformPairCount 3 0 = 0 ∧ (allPairs 3).Nonempty :=
    ⟨by decide, by decide⟩
  rw [uniform_sampling.eq_def, if_pos hcond]

/-! ### Schedule lemmas -/

theorem sr_trials_length (n K : ℕ) : (sr_trials n K).length = K - 1 := by
  simp [sr_trials]

theorem srIncrements_length (n K : ℕ) :
    (srIncrements n K).length = K - 1 := by
  simp [srIncrements, sr_trials]

theorem sr_trials_getD {K n : ℕ} (k : ℕ) (hk : k < K - 1) :
    (sr_trials n K).getD k 0 =
      ⌈((n : ℚ) - (K : ℚ) * ((K : ℚ) - 1) / 2) /
        (logbarCk K * ((K : ℚ) + 1 - ((k : ℚ) + 1)))⌉ := by
  rw [sr_trials, List.getD_eq_getElem?_getD, List.getElem?_map,
    List.getElem?_range hk]
  rfl

theorem zipWith_sub_getD (l1 l2 : List ℤ) (k : ℕ)
    (hk : k < (List.zipWith (fun a b => a - b) l1 l2).length) :
    (List.zipWith (fun a b => a - b) l1 l2).getD k 0 =
      l1.getD k 0 - l2.getD k 0 := by
  induction l1 generalizing l2 k with
  | nil => simp at hk
  | cons a l1 ih =>
    cases l2 with
    | nil => simp at hk
    | cons b l2 =>
      cases k with
      | zero => rfl
      | succ k =>
        simp only [List.zipWith_cons_cons, List.getD_cons_succ]
        exact ih l2 k (by simpa using hk)

theorem srIncrements_getD {K n : ℕ} (k : ℕ) (hk : k < K - 1) :
    (srIncrements n K).getD k 0 =
      (sr_trials n K).getD k 0 - (0 :: sr_trials n K).getD k 0 := by
  rw [srIncrements]
  exact zipWith_sub_getD _ _ k (by rw [← srIncrements]; rw [srIncrements_length]; exact hk)

theorem logbarCk_pos {K : ℕ} (hK : 2 ≤ K) : 0 < logbarCk K := by
  unfold logbarCk
  have h2K : (2 : ℚ) ≤ (K : ℚ) := by exact_mod_cast hK
  have h1 : (0 : ℚ) < ((K : ℚ) - 1) / 2 := by linarith
  have h2 : (0 : ℚ) ≤ ∑ j ∈ Finset.Ico 1 (K - 1), (j : ℚ) / ((K : ℚ) - (j : ℚ)) := by
    refine Finset.sum_nonneg fun j hj => ?_
    rw [Finset.mem_Ico] at hj
    have hjK : j + 1 ≤ K - 1 := hj.2
    have hjK2 : j + 2 ≤ K := by omega
    have hc : ((j : ℚ) + 2) ≤ (K : ℚ) := by exact_mod_cast hjK2
    have hj0 : (0 : ℚ) ≤ (j : ℚ) := Nat.cast_nonneg j
    apply div_nonneg hj0
    linarith
  linarith

theorem srSchedule_denom_pos {K : ℕ} (hK : 2 ≤ K) (k : ℕ) (hk : k < K - 1) :
    0 < logbarCk K * ((K : ℚ) + 1 - ((k : ℚ) + 1)) := by
  have hkK : k + 2 ≤ K := by omega
  have hc : ((k : ℚ) + 2) ≤ (K : ℚ) := by exact_mod_cast hkK
  exact mul_pos (logbarCk_pos hK) (by linarith)

theorem srBudget_cast {K trials : ℕ} (hK : 2 ≤ K)
    (hb : K * (K - 1) / 2 ≤ trials) :
    (0 : ℚ) ≤ (trials : ℚ) - (K : ℚ) * ((K : ℚ) - 1) / 2 := by
  have h1 : (K - 1) + 1 = K := by omega
  have he : Even ((K - 1) * K) := by
    have h2 := Nat.even_mul_succ_self (K - 1)
    rwa [h1] at h2
  obtain ⟨r, hr⟩ := he
  have h2t : K * (K - 1) ≤ 2 * trials := by
    rw [Nat.mul_comm] at hb ⊢
    omega
  have hcast : ((K * (K - 1) : ℕ) : ℚ) ≤ ((2 * trials : ℕ) : ℚ) := by
    exact_mod_cast h2t
  have hK1 : ((K - 1 : ℕ) : ℚ) = (K : ℚ) - 1 := by
    rw [Nat.cast_sub (by omega), Nat.cast_one]
  rw [Nat.cast_mul, Nat.cast_mul, hK1] at hcast
  push_cast at hcast
  linarith

theorem sr_trials_nonneg {K trials : ℕ} (hK : 2 ≤ K)
    (hb : K * (K - 1) / 2 ≤ trials) (k : ℕ) (hk : k < K - 1) :
    0 ≤ (sr_trials trials K).getD k 0 := by
  rw [sr_trials_getD k hk]
  exact Int.ceil_nonneg
    (div_nonneg (srBudget_cast hK hb) (srSchedule_denom_pos hK k hk).le)

theorem sr_trials_mono {K trials : ℕ} (hK : 2 ≤ K)
    (hb : K * (K - 1) / 2 ≤ trials) (k : ℕ) (hk : k + 1 < K - 1) :
    (sr_trials trials K).getD k 0 ≤ (sr_trials trials K).getD (k + 1) 0 := by
  rw [sr_trials_getD k (by omega), sr_trials_getD (k + 1) hk]
  apply Int.ceil_le_ceil
  have ha := srBudget_cast hK hb
  have hp1 := srSchedule_denom_pos hK k (by omega)
  have hp2 := srSchedule_denom_pos hK (k + 1) hk
  apply div_le_div_of_nonneg_left ha hp2
  have : ((k : ℚ)) ≤ ((k : ℚ)) + 1 := by linarith
  have hck := (logbarCk_pos hK).le
  push_cast
  nlinarith [logbarCk_pos hK]

theorem srIncrements_nonneg {K trials : ℕ} (hK : 2 ≤ K)
    (hb : K * (K - 1) / 2 ≤ trials) :
    ∀ t ∈ srIncrements trials K, 0 ≤ t := by
  intro t ht
  obtain ⟨k, hk, rfl⟩ := List.mem_iff_getElem.mp ht
  rw [srIncrements_length] at hk
  rw [← List.getD_eq_getElem _ 0, srIncrements_getD k hk]
  cases k with
  | zero =>
    have := sr_trials_nonneg hK hb 0 hk
    simpa using this
  | succ k =>
    have hmono := sr_trials_mono hK hb k hk
    have : (0 :: sr_trials trials K).getD (k + 1) 0 =
        (sr_trials trials K).getD k 0 := rfl
    rw [this]
    omega

theorem srIncrements_take_sum {K n : ℕ} (k : ℕ) (hk : k < K - 1) :
    ((srIncrements n K).take (k + 1)).sum = (sr_trials n K).getD k 0 := by
  induction k with
  | zero =>
    have h0 : 0 < (srIncrements n K).length := by
      rw [srIncrements_length]
      omega
    rw [List.sum_take_succ _ 0 h0, ← List.getD_eq_getElem _ 0,
      srIncrements_getD 0 hk]
    simp
  | succ k ih =>
    have hlen : k + 1 < (srIncrements n K).length := by
      rw [srIncrements_length]
      exact hk
    rw [List.sum_take_succ _ (k + 1) hlen, ih (by omega),
      ← List.getD_eq_getElem _ 0, srIncrements_getD (k + 1) hk]
    have : (0 :: sr_trials n K).getD (k + 1) 0 =
        (sr_trials n K).getD k 0 := rfl
    rw [this]
    omega

/-! ### Run decomposition lemmas -/

theorem srLoop_append {K : ℕ} (sampler : ℕ → Fin K × Fin K → ℕ → Batch)
    (l1 l2 : List ℤ) (st : SRState K) :
    srLoop sampler (l1 ++ l2) st =
      match srLoop sampler l1 st with
      | .error e => .error e
      | .ok st' => srLoop sampler l2 st' := by
  induction l1 generalizing st with
  | nil => rfl
  | cons t l1 ih =>
    rw [List.cons_append]
    show (match srPhase sampler t st with
      | Except.error e => Except.error e
      | Except.ok st' => srLoop sampler (l1 ++ l2) st') =
      match (match srPhase sampler t st with
        | Except.error e => Except.error e
        | Except.ok st' => srLoop sampler l1 st') with
      | Except.error e => Except.error e
      | Except.ok st' => srLoop sampler l2 st'
    cases srPhase sampler t st with
    | error e => rfl
    | ok st' => exact ih st'

theorem srRunStates_zero {K : ℕ} (sampler : ℕ → Fin K × Fin K → ℕ → Batch)
    (trials : ℕ) : srRunStates sampler trials 0 = .ok (srInit K) := rfl

theorem srRunStates_succ {K : ℕ} (sampler : ℕ → Fin K × Fin K → ℕ → Batch)
    (trials k : ℕ) (hk : k < K - 1) :
    srRunStates sampler trials (k + 1) =
      match srRunStates sampler trials k with
      | .error e => .error e
      | .ok st => srPhase sampler ((srIncrements trials K).getD k 0) st := by
  have hklen : k < (srIncrements trials K).length := by
    rw [srIncrements_length]
    exact hk
  simp only [srRunStates]
  rw [List.take_succ, srLoop_append, List.getElem?_eq_getElem hklen]
  rw [show ((srIncrements trials K)[k]) = (srIncrements trials K).getD k 0 from
    (List.getD_eq_getElem _ 0 hklen).symm]
  cases srLoop sampler ((srIncrements trials K).take k) (srInit K) with
  | error e => rfl
  | ok st =>
    show (match srPhase sampler ((srIncrements trials K).getD k 0) st with
      | Except.error e => Except.error e
      | Except.ok st' => srLoop sampler [] st') =
      srPhase sampler ((srIncrements trials K).getD k 0) st
    cases srPhase sampler ((srIncrements trials K).getD k 0) st with
    | error e => rfl
    | ok st' => rfl

/-- A non-erroring phase: with a nonnegative increment and a non-empty
active set, `srPhase` succeeds and performs exactly the bookkeeping of
the source: reject the lowest-index maximal arm, freeze its estimate,
record the active minimum, erase it from `B`, prune `A` and the dict. -/
theorem srPhase_ok {K : ℕ} (sampler : ℕ → Fin K × Fin K → ℕ → Batch)
    (t : ℤ) (ht : 0 ≤ t) (st : SRState K) (hB : st.B.Nonempty) :
    ∃ r m, argmaxIn st.B (phaseVals sampler st t) = some r ∧
      minIn st.B (phaseVals sampler st t) = some m ∧ r ∈ st.B ∧
      srPhase sampler t st =
        .ok ⟨st.B.erase r,
          st.A.filter fun p => p.1 ∈ st.B.erase r ∨ p.2 ∈ st.B.erase r,
          fun i j =>
            if i ∈ st.B.erase r ∨ j ∈ st.B.erase r then
              srSampleDict sampler st t i j
            else none,
          Function.update st.ests r (phaseVals sampler st t r),
          some m, st.phase + 1⟩ := by
  obtain ⟨r, hmax, hrB, _, _⟩ := argmaxIn_spec st.B (phaseVals sampler st t) hB
  obtain ⟨m, hmin, _, _⟩ := minIn_spec st.B (phaseVals sampler st t) hB
  have hcond : ¬(t < 0 ∧ st.A.Nonempty) := fun h => absurd h.1 (not_lt.mpr ht)
  refine ⟨r, m, hmax, hmin, hrB, ?_⟩
  rw [srPhase.eq_def, if_neg hcond, hmax, hmin]

/-- The master invariant: under a nonnegative schedule, after `k ≤ K-1`
phases the run is alive, `|B| = K - k`, and `min_mse` is bound once a
phase has run. -/
theorem sr_states_inv {K : ℕ} (sampler : ℕ → Fin K × Fin K → ℕ → Batch)
    (trials : ℕ) (hK : 2 ≤ K)
    (hts : ∀ t ∈ srIncrements trials K, 0 ≤ t) :
    ∀ k, k ≤ K - 1 → ∃ st : SRState K,
      srRunStates sampler trials k = .ok st ∧ st.B.card = K - k ∧
      (0 < k → st.minMse.isSome) := by
  intro k
  induction k with
  | zero =>
    intro _
    refine ⟨srInit K, rfl, ?_, by omega⟩
    show (Finset.univ : Finset (Fin K)).card = K - 0
    rw [Finset.card_univ, Fintype.card_fin]
    omega
  | succ k ih =>
    intro hk1
    obtain ⟨st, hst, hcard, _⟩ := ih (by omega)
    have hBne : st.B.Nonempty := by
      rw [← Finset.card_pos, hcard]
      omega
    have hklen : k < (srIncrements trials K).length := by
      rw [srIncrements_length]
      omega
    have ht : 0 ≤ (srIncrements trials K).getD k 0 := by
      rw [List.getD_eq_getElem _ 0 hklen]
      exact hts _ (List.getElem_mem hklen)
    obtain ⟨r, m, hmax, hmin, hrB, hphase⟩ :=
      srPhase_ok sampler _ ht st hBne
    refine ⟨⟨st.B.erase r,
      st.A.filter fun p => p.1 ∈ st.B.erase r ∨ p.2 ∈ st.B.erase r,
      fun i j =>
        if i ∈ st.B.erase r ∨ j ∈ st.B.erase r then
          srSampleDict sampler st ((srIncrements trials K).getD k 0) i j
        else none,
      Function.update st.ests r
        (phaseVals sampler st ((srIncrements trials K).getD k 0) r),
      some m, st.phase + 1⟩, ?_, ?_, ?_⟩
    · rw [srRunStates_succ sampler trials k (by omega), hst]
      exact hphase
    · show (st.B.erase r).card = K - (k + 1)
      rw [Finset.card_erase_of_mem hrB, hcard]
      omega
    · intro _
      rfl

/-- One step of the run, with the full bookkeeping exposed. -/
theorem sr_states_step {K : ℕ} (sampler : ℕ → Fin K × Fin K → ℕ → Batch)
    (trials : ℕ) (hK : 2 ≤ K)
    (hts : ∀ t ∈ srIncrements trials K, 0 ≤ t) (k : ℕ) (hk : k < K - 1) :
    ∃ (st st' : SRState K) (r : Fin K) (m : ℝ),
      srRunStates sampler trials k = .ok st ∧
      srRunStates sampler trials (k + 1) = .ok st' ∧
      argmaxIn st.B (phaseVals sampler st ((srIncrements trials K).getD k 0)) =
        some r ∧
      r ∈ st.B ∧ st.B.card = K - k ∧
      st'.B = st.B.erase r ∧
      st'.ests = Function.update st.ests r
        (phaseVals sampler st ((srIncrements trials K).getD k 0) r) ∧
      st'.minMse = some m ∧
      minIn st.B (phaseVals sampler st ((srIncrements trials K).getD k 0)) =
        some m := by
  obtain ⟨st, hst, hcard, _⟩ := sr_states_inv sampler trials hK hts k (by omega)
  have hBne : st.B.Nonempty := by
    rw [← Finset.card_pos, hcard]
    omega
  have hklen : k < (srIncrements trials K).length := by
    rw [srIncrements_length]
    omega
  have ht : 0 ≤ (srIncrements trials K).getD k 0 := by
    rw [List.getD_eq_getElem _ 0 hklen]
    exact hts _ (List.getElem_mem hklen)
  obtain ⟨r, m, hmax, hmin, hrB, hphase⟩ := srPhase_ok sampler _ ht st hBne
  refine ⟨st, ⟨st.B.erase r,
      st.A.filter fun p => p.1 ∈ st.B.erase r ∨ p.2 ∈ st.B.erase r,
      fun i j =>
        if i ∈ st.B.erase r ∨ j ∈ st.B.erase r then
          srSampleDict sampler st ((srIncrements trials K).getD k 0) i j
        else none,
      Function.update st.ests r
        (phaseVals sampler st ((srIncrements trials K).getD k 0) r),
      some m, st.phase + 1⟩, r, m, hst, ?_, hmax, hrB, hcard, rfl, rfl, rfl, hmin⟩
  rw [srRunStates_succ sampler trials k hk, hst]
  exact hphase

/-- Frozen-estimate lemma: an arm outside the active set never has its
estimate touched again, and never re-enters the active set. -/
theorem sr_ests_frozen {K : ℕ} (sampler : ℕ → Fin K × Fin K → ℕ → Batch)
    (trials : ℕ) (hK : 2 ≤ K)
    (hts : ∀ t ∈ srIncrements trials K, 0 ≤ t) :
    ∀ m2, m2 ≤ K - 1 → ∀ m1, m1 ≤ m2 →
      ∀ st1 st2 : SRState K, srRunStates sampler trials m1 = .ok st1 →
        srRunStates sampler trials m2 = .ok st2 →
        ∀ i, i ∉ st1.B → st2.ests i = st1.ests i ∧ i ∉ st2.B := by
  intro m2
  induction m2 with
  | zero =>
    intro _ m1 hm1 st1 st2 h1 h2 i hi
    have hm0 : m1 = 0 := by omega
    subst hm0
    rw [h1] at h2
    injection h2 with h2
    subst h2
    exact ⟨rfl, hi⟩
  | succ m ih =>
    intro hm2 m1 hm1 st1 st2 h1 h2 i hi
    rcases Nat.eq_or_lt_of_le hm1 with heq | hlt
    · subst heq
      rw [h1] at h2
      injection h2 with h2
      subst h2
      exact ⟨rfl, hi⟩
    · obtain ⟨st, st', r, mm, hst, hst', hmax, hrB, hcard, hB', hests', _, _⟩ :=
        sr_states_step sampler trials hK hts m (by omega)
      rw [hst'] at h2
      injection h2 with h2
      subst h2
      obtain ⟨hests, hnotB⟩ := ih (by omega) m1 (by omega) st1 st h1 hst i hi
      have hir : i ≠ r := fun h => hnotB (h ▸ hrB)
      constructor
      · rw [hests', Function.update_noteq hir, hests]
      · rw [hB']
        intro hmem
        exact hnotB (Finset.mem_of_mem_erase hmem)

/-- The full run is the truncated run at `K - 1` phases followed by the
epilogue. -/
theorem successive_rejects_eq_finish {K : ℕ}
    (sampler : ℕ → Fin K × Fin K → ℕ → Batch) (trials : ℕ) :
    successive_rejects sampler trials =
      match srRunStates sampler trials ((srIncrements trials K).length) with
      | .error e => .error e
      | .ok st => srFinish st := by
  rw [successive_rejects.eq_def, srRunStates, List.take_length]

theorem srFinish_ok {K : ℕ} (st : SRState K) (hB : st.B.Nonempty) (m : ℝ)
    (hm : st.minMse = some m) :
    ∃ a, a ∈ st.B ∧ srFinish st = .ok (a, Function.update st.ests a m) := by
  obtain ⟨b0, hb0⟩ := hB
  rw [srFinish.eq_def]
  cases hl : ((List.finRange K).filter fun i => i ∈ st.B).head? with
  | none =>
    exfalso
    have hmem : b0 ∈ (List.finRange K).filter (fun i => i ∈ st.B) :=
      (mem_activeList _ _).mpr hb0
    cases hcons : (List.finRange K).filter (fun i => i ∈ st.B) with
    | nil =>
      rw [hcons] at hmem
      exact absurd hmem (List.not_mem_nil _)
    | cons h t =>
      rw [hcons] at hl
      simp at hl
  | some arm =>
    have harm : arm ∈ st.B := by
      have hml : arm ∈ (List.finRange K).filter (fun i => i ∈ st.B) :=
        List.mem_of_mem_head? (by rw [hl]; rfl)
      exact (mem_activeList _ _).mp hml
    rw [hm]
    exact ⟨arm, harm, rfl⟩

/-! ### Claims about the schedule and the elimination run -/

/-- CLAIM C1 (amended).  For every number of arms `K` and every budget,
the run's cumulative per-pair allocation sequence (the partial sums of
the phase increments) follows the closed form
`n_k = ⌈(budget − K(K−1)/2) / (c_K · (K+1−k))⌉`, `k = 1..K−1`, `n_0 = 0`
— where, amending the claim, the normalizing constant computed by the
code is `c_K = (K−1)/2 + Σ_{j=1}^{K−2} j/(K−j)`, not
`(K−1)/2 + Σ_{j=1}^{K−2} 1/(K−j)` as the claim states. -/
theorem claim_C1_schedule (n K : ℕ) :
    (srIncrements n K).length = K - 1 ∧
      ∀ k, k < K - 1 →
        ((srIncrements n K).take (k + 1)).sum =
          ⌈((n : ℚ) - (K : ℚ) * ((K : ℚ) - 1) / 2) /
            ((((K : ℚ) - 1) / 2 +
              ∑ j ∈ Finset.Ico 1 (K - 1), (j : ℚ) / ((K : ℚ) - (j : ℚ))) *
              ((K : ℚ) + 1 - ((k : ℚ) + 1)))⌉ := by
  refine ⟨srIncrements_length n K, fun k hk => ?_⟩
  rw [srIncrements_take_sum k hk, sr_trials_getD k hk]
  simp only [logbarCk]

/-- Witness for the amended C1 at `K = 4`, budget `50`, phase `1`. -/
theorem claim_C1_schedule_witness :
    (0 : ℕ) < 4 - 1 ∧
      ((srIncrements 50 4).take (0 + 1)).sum =
        ⌈((50 : ℚ) - (4 : ℚ) * ((4 : ℚ) - 1) / 2) /
          ((((4 : ℚ) - 1) / 2 +
            ∑ j ∈ Finset.Ico (1 : ℕ) (4 - 1), (j : ℚ) / ((4 : ℚ) - (j : ℚ))) *
            ((4 : ℚ) + 1 - (((0 : ℕ) : ℚ) + 1)))⌉ :=
  ⟨by omega, (claim_C1_schedule 50 4).2 0 (by omega)⟩

/-- Counterexample to CLAIM C1 as stated: at `K = 4`, budget `50`, the
code's schedule is `[4, 6, 8]` while the claimed closed form (with the
constant `(K−1)/2 + Σ 1/(K−j)`) gives `[5, 7, 10]`. -/
theorem claim_C1_counterexample : sr_trials 50 4 ≠ srTrialsClaimC1 50 4 := by
  have h1 : sr_trials 50 4 = [4, 6, 8] := by
    norm_num [sr_trials, logbarCk, List.range_succ, Finset.sum_Ico_succ_top,
      Int.ceil_eq_iff]
  have h2 : srTrialsClaimC1 50 4 = [5, 7, 10] := by
    norm_num [srTrialsClaimC1, List.range_succ, Finset.sum_Ico_succ_top,
      Int.ceil_eq_iff]
  rw [h1, h2]
  decide

/-- CLAIM C4.  For every `K ≥ 2` and budget ≥ `K(K−1)/2`, a Successive
Rejects run executes exactly `K−1` phases, removes exactly one arm from
the active set `B` in each phase (`|B| = K − k` after phase `k`), and
terminates returning the single arm remaining in `B`. -/
theorem claim_C4_sr_structure {K : ℕ} (hK : 2 ≤ K) (trials : ℕ)
    (hb : K * (K - 1) / 2 ≤ trials)
    (sampler : ℕ → Fin K × Fin K → ℕ → Batch) :
    (srIncrements trials K).length = K - 1 ∧
      (∀ k, k ≤ K - 1 → ∃ st : SRState K,
        srRunStates sampler trials k = .ok st ∧ st.B.card = K - k) ∧
      (∀ k, k < K - 1 → ∃ (st st' : SRState K) (r : Fin K),
        srRunStates sampler trials k = .ok st ∧
        srRunStates sampler trials (k + 1) = .ok st' ∧
        r ∈ st.B ∧ st'.B = st.B.erase r) ∧
      ∃ (stF : SRState K) (a : Fin K) (ests : Fin K → ℝ),
        srRunStates sampler trials (K - 1) = .ok stF ∧ stF.B = {a} ∧
        successive_rejects sampler trials = .ok (a, ests) := by
  have hts := srIncrements_nonneg hK hb
  refine ⟨srIncrements_length trials K, ?_, ?_, ?_⟩
  · intro k hk
    obtain ⟨st, hst, hcard, _⟩ := sr_states_inv sampler trials hK hts k hk
    exact ⟨st, hst, hcard⟩
  · intro k hk
    obtain ⟨st, st', r, m, hst, hst', _, hrB, _, hB', _, _, _⟩ :=
      sr_states_step sampler trials hK hts k hk
    exact ⟨st, st', r, hst, hst', hrB, hB'⟩
  · obtain ⟨stF, hstF, hcard, hmm⟩ :=
      sr_states_inv sampler trials hK hts (K - 1) le_rfl
    have hcard1 : stF.B.card = 1 := by
      rw [hcard]
      omega
    obtain ⟨a, ha⟩ := Finset.card_eq_one.mp hcard1
    obtain ⟨mv, hmv⟩ := Option.isSome_iff_exists.mp (hmm (by omega))
    obtain ⟨a', ha', hfin⟩ := srFinish_ok stF
      (by rw [ha]; exact ⟨a, Finset.mem_singleton_self a⟩) mv hmv
    have haa : a' = a := by
      rw [ha] at ha'
      exact Finset.mem_singleton.mp ha'
    subst haa
    refine ⟨stF, a', Function.update stF.ests a' mv, hstF, ha, ?_⟩
    rw [successive_rejects_eq_finish sampler trials, srIncrements_length, hstF]
    exact hfin

/-- Witness for C4: `K = 2`, budget `1 = K(K−1)/2`. -/
theorem claim_C4_sr_structure_witness :
    2 ≤ 2 ∧ 2 * (2 - 1) / 2 ≤ 1 ∧
      ((srIncrements 1 2).length = 2 - 1 ∧
        (∀ k, k ≤ 2 - 1 → ∃ st : SRState 2,
          srRunStates (zeroSampler 2) 1 k = .ok st ∧ st.B.card = 2 - k) ∧
        (∀ k, k < 2 - 1 → ∃ (st st' : SRState 2) (r : Fin 2),
          srRunStates (zeroSampler 2) 1 k = .ok st ∧
          srRunStates (zeroSampler 2) 1 (k + 1) = .ok st' ∧
          r ∈ st.B ∧ st'.B = st.B.erase r) ∧
        ∃ (stF : SRState 2) (a : Fin 2) (ests : Fin 2 → ℝ),
          srRunStates (zeroSampler 2) 1 (2 - 1) = .ok stF ∧ stF.B = {a} ∧
          successive_rejects (zeroSampler 2) 1 = .ok (a, ests)) :=
  ⟨by omega, by omega,
    claim_C4_sr_structure (by omega) 1 (by omega) (zeroSampler 2)⟩

/-- CLAIM C6.  In every Successive Rejects run (`K ≥ 2`, budget ≥
`K(K−1)/2`), the returned MSE entry of the winning arm equals the
minimum estimated MSE among the arms still active in `B` during the
final phase. -/
theorem claim_C6_winner_min {K : ℕ} (hK : 2 ≤ K) (trials : ℕ)
    (hb : K * (K - 1) / 2 ≤ trials)
    (sampler : ℕ → Fin K × Fin K → ℕ → Batch) :
    ∃ (stPre : SRState K) (a : Fin K) (ests : Fin K → ℝ),
      srRunStates sampler trials (K - 2) = .ok stPre ∧
      successive_rejects sampler trials = .ok (a, ests) ∧
      (∃ b ∈ stPre.B, ests a =
        phaseVals sampler stPre ((srIncrements trials K).getD (K - 2) 0) b) ∧
      ∀ b ∈ stPre.B, ests a ≤
        phaseVals sampler stPre ((srIncrements trials K).getD (K - 2) 0) b := by
  have hts := srIncrements_nonneg hK hb
  have hK2 : K - 2 < K - 1 := by omega
  obtain ⟨st, st', r, m, hst, hst', hmax, hrB, hcard, hB', hests', hmm', hmin⟩ :=
    sr_states_step sampler trials hK hts (K - 2) hK2
  have hsucc : K - 2 + 1 = K - 1 := by omega
  rw [hsucc] at hst'
  have hcard' : st'.B.card = 1 := by
    rw [hB', Finset.card_erase_of_mem hrB, hcard]
    omega
  have hBne' : st'.B.Nonempty := by
    rw [← Finset.card_pos, hcard']
    omega
  obtain ⟨a, haB', hfin⟩ := srFinish_ok st' hBne' m hmm'
  have hBne : st.B.Nonempty := by
    rw [← Finset.card_pos, hcard]
    omega
  obtain ⟨m2, hmin2, hatt2, hlb2⟩ := minIn_spec st.B
    (phaseVals sampler st ((srIncrements trials K).getD (K - 2) 0)) hBne
  have hm2 : m2 = m := by
    rw [hmin] at hmin2
    exact (Option.some.inj hmin2).symm
  subst hm2
  refine ⟨st, a, Function.update st'.ests a m2, hst, ?_, ?_, ?_⟩
  · rw [successive_rejects_eq_finish sampler trials, srIncrements_length, hst']
    exact hfin
  · obtain ⟨b, hbB, hmb⟩ := hatt2
    refine ⟨b, hbB, ?_⟩
    rw [Function.update_same]
    exact hmb
  · intro b hbB
    rw [Function.update_same]
    exact hlb2 b hbB

/-- Witness for C6: `K = 2`, budget `1`. -/
theorem claim_C6_winner_min_witness :
    2 ≤ 2 ∧ 2 * (2 - 1) / 2 ≤ 1 ∧
      ∃ (stPre : SRState 2) (a : Fin 2) (ests : Fin 2 → ℝ),
        srRunStates (zeroSampler 2) 1 (2 - 2) = .ok stPre ∧
        successive_rejects (zeroSampler 2) 1 = .ok (a, ests) ∧
        (∃ b ∈ stPre.B, ests a =
          phaseVals (zeroSampler 2) stPre ((srIncrements 1 2).getD (2 - 2) 0) b) ∧
        ∀ b ∈ stPre.B, ests a ≤
          phaseVals (zeroSampler 2) stPre ((srIncrements 1 2).getD (2 - 2) 0) b :=
  ⟨by omega, by omega,
    claim_C6_winner_min (by omega) 1 (by omega) (zeroSampler 2)⟩

/-- CLAIM C7.  In every Successive Rejects run (`K ≥ 2`, budget ≥
`K(K−1)/2`), the arm eliminated in phase `k+1` has its output entry
written with its estimated MSE at the moment of elimination, and that
entry is carried unchanged through every later phase state and into the
returned vector. -/
theorem claim_C7_frozen {K : ℕ} (hK : 2 ≤ K) (trials : ℕ)
    (hb : K * (K - 1) / 2 ≤ trials)
    (sampler : ℕ → Fin K × Fin K → ℕ → Batch) :
    ∀ k, k < K - 1 → ∃ (st st' : SRState K) (r : Fin K),
      srRunStates sampler trials k = .ok st ∧
      srRunStates sampler trials (k + 1) = .ok st' ∧
      argmaxIn st.B (phaseVals sampler st ((srIncrements trials K).getD k 0)) =
        some r ∧
      st'.ests r = phaseVals sampler st ((srIncrements trials K).getD k 0) r ∧
      (∀ mph, k + 1 ≤ mph → mph ≤ K - 1 →
        ∀ stm : SRState K, srRunStates sampler trials mph = .ok stm →
          stm.ests r =
            phaseVals sampler st ((srIncrements trials K).getD k 0) r) ∧
      ∀ (a : Fin K) (ests : Fin K → ℝ),
        successive_rejects sampler trials = .ok (a, ests) →
          ests r = phaseVals sampler st ((srIncrements trials K).getD k 0) r := by
  intro k hk
  have hts := srIncrements_nonneg hK hb
  obtain ⟨st, st', r, m, hst, hst', hmax, hrB, hcard, hB', hests', hmm', hmin⟩ :=
    sr_states_step sampler trials hK hts k hk
  have hval : st'.ests r =
      phaseVals sampler st ((srIncrements trials K).getD k 0) r := by
    rw [hests', Function.update_same]
  have hrnot : r ∉ st'.B := by
    rw [hB']
    exact Finset.not_mem_erase r st.B
  have hfrozen : ∀ mph, k + 1 ≤ mph → mph ≤ K - 1 →
      ∀ stm : SRState K, srRunStates sampler trials mph = .ok stm →
        stm.ests r =
          phaseVals sampler st ((srIncrements trials K).getD k 0) r := by
    intro mph hm1 hm2 stm hstm
    obtain ⟨heq, _⟩ := sr_ests_frozen sampler trials hK hts mph hm2 (k + 1)
      hm1 st' stm hst' hstm r hrnot
    rw [heq, hval]
  refine ⟨st, st', r, hst, hst', hmax, hval, hfrozen, ?_⟩
  intro a ests hrun
  obtain ⟨stF, hstF, hcardF, hmmF⟩ :=
    sr_states_inv sampler trials hK hts (K - 1) le_rfl
  obtain ⟨mv, hmv⟩ := Option.isSome_iff_exists.mp (hmmF (by omega))
  have hBneF : stF.B.Nonempty := by
    rw [← Finset.card_pos, hcardF]
    omega
  obtain ⟨aF, haF, hfin⟩ := srFinish_ok stF hBneF mv hmv
  have hrunF : successive_rejects sampler trials =
      .ok (aF, Function.update stF.ests aF mv) := by
    rw [successive_rejects_eq_finish sampler trials, srIncrements_length, hstF]
    exact hfin
  rw [hrun] at hrunF
  injection hrunF with hpair
  have hes : ests = Function.update stF.ests aF mv := congrArg Prod.snd hpair
  obtain ⟨heqF, hrnotF⟩ := sr_ests_frozen sampler trials hK hts (K - 1) le_rfl
    (k + 1) (by omega) st' stF hst' hstF r hrnot
  have hra : r ≠ aF := fun h => hrnotF (h ▸ haF)
  rw [hes, Function.update_noteq hra, heqF, hval]

/-- Witness for C7: `K = 2`, budget `1`, phase `1`. -/
theorem claim_C7_frozen_witness :
    2 ≤ 2 ∧ 2 * (2 - 1) / 2 ≤ 1 ∧ 0 < 2 - 1 ∧
      (∃ (st st' : SRState 2) (r : Fin 2),
        srRunStates (zeroSampler 2) 1 0 = .ok st ∧
        srRunStates (zeroSampler 2) 1 (0 + 1) = .ok st' ∧
        argmaxIn st.B (phaseVals (zeroSampler 2) st ((srIncrements 1 2).getD 0 0)) =
          some r ∧
        st'.ests r = phaseVals (zeroSampler 2) st ((srIncrements 1 2).getD 0 0) r ∧
        (∀ mph, 0 + 1 ≤ mph → mph ≤ 2 - 1 →
          ∀ stm : SRState 2, srRunStates (zeroSampler 2) 1 mph = .ok stm →
            stm.ests r =
              phaseVals (zeroSampler 2) st ((srIncrements 1 2).getD 0 0) r) ∧
        ∀ (a : Fin 2) (ests : Fin 2 → ℝ),
          successive_rejects (zeroSampler 2) 1 = .ok (a, ests) →
            ests r = phaseVals (zeroSampler 2) st ((srIncrements 1 2).getD 0 0) r) :=
  ⟨by omega, by omega, by omega,
    claim_C7_frozen (by omega) 1 (by omega) (zeroSampler 2) 0 (by omega)⟩

/-- CLAIM C8 (amended).  The run performs no budget validation and no
`InvalidBudget` exists anywhere in the code: for every `K ≥ 2` and every
budget whose schedule increments are all nonnegative — which includes
every budget ≥ `K(K−1)/2` but also budgets strictly below it — the run
proceeds normally and returns an arm with its estimate vector instead of
failing. -/
theorem claim_C8_no_budget_check {K : ℕ} (hK : 2 ≤ K) (trials : ℕ)
    (hts : ∀ t ∈ srIncrements trials K, 0 ≤ t)
    (sampler : ℕ → Fin K × Fin K → ℕ → Batch) :
    ∃ (a : Fin K) (ests : Fin K → ℝ),
      successive_rejects sampler trials = .ok (a, ests) := by
  obtain ⟨stF, hstF, hcard, hmm⟩ :=
    sr_states_inv sampler trials hK hts (K - 1) le_rfl
  have hBne : stF.B.Nonempty := by
    rw [← Finset.card_pos, hcard]
    omega
  obtain ⟨mv, hmv⟩ := Option.isSome_iff_exists.mp (hmm (by omega))
  obtain ⟨a, _, hfin⟩ := srFinish_ok stF hBne mv hmv
  refine ⟨a, Function.update stF.ests a mv, ?_⟩
  rw [successive_rejects_eq_finish sampler trials, srIncrements_length, hstF]
  exact hfin

/-- The schedule at `K = 3`, budget `2 < 3 = K(K−1)/2`: both phase
increments are `0`. -/
theorem srIncrements_eval_2_3 : srIncrements 2 3 = [0, 0] := by
  have h : sr_trials 2 3 = [0, 0] := by
    norm_num [sr_trials, logbarCk, List.range_succ, Finset.sum_Ico_succ_top,
      Int.ceil_eq_iff]
  rw [srIncrements, h]
  decide

/-- Witness for the amended C8: `K = 3`, budget `2` strictly below
`K(K−1)/2 = 3` — the run still succeeds. -/
theorem claim_C8_no_budget_check_witness :
    2 ≤ 3 ∧ (∀ t ∈ srIncrements 2 3, 0 ≤ t) ∧
      ∃ (a : Fin 3) (ests : Fin 3 → ℝ),
        successive_rejects (zeroSampler 3) 2 = .ok (a, ests) := by
  have hts : ∀ t ∈ srIncrements 2 3, 0 ≤ t := by
    intro t ht
    rw [srIncrements_eval_2_3] at ht
    simp at ht
    omega
  exact ⟨by omega, hts, claim_C8_no_budget_check (by omega) 2 hts (zeroSampler 3)⟩

/-- CLAIM C10.  In every Successive Rejects phase, the eliminated arm is
the lowest-index arm among those tied for the maximum estimated MSE in
the active set: it attains the maximum, and every tied arm has an index
at least as large.  This pins the eliminated arm as a deterministic
function of the estimated MSE vector and the active set. -/
theorem claim_C10_tiebreak {K : ℕ} (hK : 2 ≤ K) (trials : ℕ)
    (hb : K * (K - 1) / 2 ≤ trials)
    (sampler : ℕ → Fin K × Fin K → ℕ → Batch) :
    ∀ k, k < K - 1 → ∃ (st st' : SRState K) (r : Fin K),
      srRunStates sampler trials k = .ok st ∧
      srRunStates sampler trials (k + 1) = .ok st' ∧
      argmaxIn st.B (phaseVals sampler st ((srIncrements trials K).getD k 0)) =
        some r ∧
      r ∈ st.B ∧ st'.B = st.B.erase r ∧
      (∀ b ∈ st.B, phaseVals sampler st ((srIncrements trials K).getD k 0) b ≤
        phaseVals sampler st ((srIncrements trials K).getD k 0) r) ∧
      ∀ b ∈ st.B, phaseVals sampler st ((srIncrements trials K).getD k 0) b =
        phaseVals sampler st ((srIncrements trials K).getD k 0) r → r ≤ b := by
  intro k hk
  have hts := srIncrements_nonneg hK hb
  obtain ⟨st, st', r, m, hst, hst', hmax, hrB, hcard, hB', _, _, _⟩ :=
    sr_states_step sampler trials hK hts k hk
  have hBne : st.B.Nonempty := by
    rw [← Finset.card_pos, hcard]
    omega
  obtain ⟨r2, hmax2, hr2B, hub2, hstrict2⟩ := argmaxIn_spec st.B
    (phaseVals sampler st ((srIncrements trials K).getD k 0)) hBne
  have hr2 : r2 = r := by
    rw [hmax] at hmax2
    exact (Option.some.inj hmax2).symm
  subst hr2
  refine ⟨st, st', r2, hst, hst', hmax, hrB, hB', hub2, ?_⟩
  intro b hbB heq
  by_contra hnot
  have hbr : b < r2 := lt_of_not_le fun h => hnot h
  exact absurd heq (ne_of_lt (hstrict2 b hbB hbr))

/-- Witness for C10: `K = 2`, budget `1`, phase `1`. -/
theorem claim_C10_tiebreak_witness :
    2 ≤ 2 ∧ 2 * (2 - 1) / 2 ≤ 1 ∧ 0 < 2 - 1 ∧
      (∃ (st st' : SRState 2) (r : Fin 2),
        srRunStates (zeroSampler 2) 1 0 = .ok st ∧
        srRunStates (zeroSampler 2) 1 (0 + 1) = .ok st' ∧
        argmaxIn st.B (phaseVals (zeroSampler 2) st ((srIncrements 1 2).getD 0 0)) =
          some r ∧
        r ∈ st.B ∧ st'.B = st.B.erase r ∧
        (∀ b ∈ st.B,
          phaseVals (zeroSampler 2) st ((srIncrements 1 2).getD 0 0) b ≤
            phaseVals (zeroSampler 2) st ((srIncrements 1 2).getD 0 0) r) ∧
        ∀ b ∈ st.B,
          phaseVals (zeroSampler 2) st ((srIncrements 1 2).getD 0 0) b =
            phaseVals (zeroSampler 2) st ((srIncrements 1 2).getD 0 0) r →
            r ≤ b) :=
  ⟨by omega, by omega, by omega,
    claim_C10_tiebreak (by omega) 1 (by omega) (zeroSampler 2) 0 (by omega)⟩

/-! ### Concrete evaluation of a budget-starved run -/

theorem srSampleDict_zero {K : ℕ} (sampler : ℕ → Fin K × Fin K → ℕ → Batch)
    (st : SRState K) : srSampleDict sampler st 0 = st.dict := by
  funext i j
  simp [srSampleDict]

theorem phaseVals_zero_degenerate {K : ℕ}
    (sampler : ℕ → Fin K × Fin K → ℕ → Batch) (st : SRState K)
    (hdict : ∀ i j, st.dict i j = none) :
    phaseVals sampler st 0 = fun _ => (0 : ℝ) := by
  funext a
  show mseEstimate (srSampleDict sampler st 0) a = 0
  rw [srSampleDict_zero]
  exact mseEstimate_degenerate st.dict hdict a

theorem pickMax_fold_const {K : ℕ} (c : ℝ) :
    ∀ (l : List (Fin K)) (j : Fin K),
      l.foldl (pickMaxStep fun _ => c) (some j) = some j := by
  intro l
  induction l with
  | nil => intro j; rfl
  | cons i tl ih =>
    intro j
    rw [List.foldl_cons]
    rw [show pickMaxStep (fun _ => c) (some j) i = some j by
      simp [pickMaxStep]]
    exact ih j

theorem argmaxIn_const {K : ℕ} (B : Finset (Fin K)) (c : ℝ) :
    argmaxIn B (fun _ => c) =
      ((List.finRange K).filter fun i => i ∈ B).head? := by
  unfold argmaxIn
  cases hl : (List.finRange K).filter fun i => i ∈ B with
  | nil => rfl
  | cons h t =>
    rw [List.foldl_cons]
    rw [show pickMaxStep (fun _ => c) none h = some h from rfl]
    rw [pickMax_fold_const]
    rfl

theorem minVal_fold_const {K : ℕ} (c : ℝ) :
    ∀ l : List (Fin K), l.foldl (minValStep fun _ => c) (some c) = some c := by
  intro l
  induction l with
  | nil => rfl
  | cons i tl ih =>
    rw [List.foldl_cons]
    rw [show minValStep (fun _ => c) (some c) i = some (min c c) from rfl,
      min_self]
    exact ih

theorem minIn_const {K : ℕ} (B : Finset (Fin K)) (c : ℝ) :
    minIn B (fun _ => c) =
      (((List.finRange K).filter fun i => i ∈ B).head?).map fun _ => c := by
  unfold minIn
  cases hl : (List.finRange K).filter fun i => i ∈ B with
  | nil => rfl
  | cons h t =>
    rw [List.foldl_cons]
    rw [show minValStep (fun _ => c) none h = some c from rfl]
    rw [minVal_fold_const]
    rfl

/-- A zero-increment phase from a state whose dict holds no pair (the
`break` fires before any draw, so the `np.zeros` matrices are
untouched): the lowest-index active arm is rejected with frozen
estimate `0`, and the dict stays empty. -/
theorem srPhase_degenerate_step {K : ℕ}
    (sampler : ℕ → Fin K × Fin K → ℕ → Batch) (st : SRState K)
    (hdict : ∀ i j, st.dict i j = none) (r : Fin K)
    (hhead : ((List.finRange K).filter fun i => i ∈ st.B).head? = some r) :
    ∃ st' : SRState K,
      srPhase sampler 0 st = .ok st' ∧
      st'.B = st.B.erase r ∧
      st'.ests = Function.update st.ests r 0 ∧
      st'.minMse = some (0 : ℝ) ∧
      ∀ i j, st'.dict i j = none := by
  have hBne : st.B.Nonempty := by
    have hmem : r ∈ (List.finRange K).filter fun i => i ∈ st.B :=
      List.mem_of_mem_head? (by rw [hhead]; rfl)
    exact ⟨r, (mem_activeList _ _).mp hmem⟩
  have hv : phaseVals sampler st 0 = fun _ => (0 : ℝ) :=
    phaseVals_zero_degenerate sampler st hdict
  obtain ⟨r0, m0, hmax0, hmin0, hr0B, hphase0⟩ :=
    srPhase_ok sampler 0 le_rfl st hBne
  have hr0 : r0 = r := by
    rw [hv, argmaxIn_const, hhead] at hmax0
    exact (Option.some.inj hmax0).symm
  have hm0 : m0 = 0 := by
    rw [hv, minIn_const, hhead] at hmin0
    exact (Option.some.inj hmin0).symm
  subst hr0
  subst hm0
  refine ⟨_, hphase0, rfl, ?_, rfl, ?_⟩
  · show Function.update st.ests r0 (phaseVals sampler st 0 r0) =
      Function.update st.ests r0 0
    rw [hv]
  · intro i j
    show (if i ∈ st.B.erase r0 ∨ j ∈ st.B.erase r0 then
      srSampleDict sampler st 0 i j else none) = none
    by_cases hc : i ∈ st.B.erase r0 ∨ j ∈ st.B.erase r0
    · rw [if_pos hc, srSampleDict_zero]
      exact hdict i j
    · rw [if_neg hc]

/-- Counterexample to CLAIM C8 as stated: at `K = 3` and budget
`2 < 3 = K(K−1)/2` the Successive Rejects run does not fail at all —
there is no `InvalidBudget` (or any validation) in the code.  It
proceeds with zero samples per pair, eliminates arms `0` and `1` on the
degenerate all-zero estimates, and returns arm `2` with the all-zero
MSE vector. -/
theorem claim_C8_counterexample :
    successive_rejects (zeroSampler 3) 2 =
      .ok (2, fun _ : Fin 3 => (0 : ℝ)) := by
  have hd0 : ∀ i j, (srInit 3).dict i j = none := fun i j => rfl
  have hhead0 : ((List.finRange 3).filter fun i => i ∈ (srInit 3).B).head? =
      some 0 := by decide
  obtain ⟨st1, hp1, hB1, hests1, hmm1, hd1⟩ :=
    srPhase_degenerate_step (zeroSampler 3) (srInit 3) hd0 0 hhead0
  have hhead1 : ((List.finRange 3).filter fun i => i ∈ st1.B).head? =
      some 1 := by
    rw [hB1]
    decide
  obtain ⟨st2, hp2, hB2, hests2, hmm2, _⟩ :=
    srPhase_degenerate_step (zeroSampler 3) st1 hd1 1 hhead1
  have h1 : srRunStates (zeroSampler 3) 2 1 = .ok st1 := by
    rw [srRunStates_succ (zeroSampler 3) 2 0 (by norm_num), srRunStates_zero,
      srIncrements_eval_2_3]
    exact hp1
  have h2 : srRunStates (zeroSampler 3) 2 2 = .ok st2 := by
    rw [srRunStates_succ (zeroSampler 3) 2 1 (by norm_num), h1,
      srIncrements_eval_2_3]
    exact hp2
  rw [successive_rejects_eq_finish (zeroSampler 3) 2]
  rw [show (srIncrements 2 3).length = 2 by rw [srIncrements_eval_2_3]; rfl]
  rw [h2]
  show srFinish st2 = Except.ok (2, fun _ : Fin 3 => (0 : ℝ))
  have hhead2 : ((List.finRange 3).filter fun i => i ∈ st2.B).head? =
      some 2 := by
    rw [hB2, hB1]
    decide
  rw [srFinish.eq_def, hhead2, hmm2]
  have hfun : Function.update st2.ests 2 (0 : ℝ) = fun _ : Fin 3 => (0 : ℝ) := by
    rw [hests2, hests1]
    funext i
    fin_cases i <;> simp [Function.update, srInit]
  show Except.ok (2, Function.update st2.ests 2 (0 : ℝ)) =
    Except.ok (2, fun _ : Fin 3 => (0 : ℝ))
  rw [hfun]

end Claims

end CorrelatedBandit
